import Mathlib

/-!
Verification development for the Dynamic-Scraping crawler.

The Python sources under `src/app` are shallowly embedded as executable Lean
definitions:

* `src/app/main.py` — `normalize_url`, the BFS orchestrator loop (`crawlStep`);
* `src/app/scraper_module/filter.py` — `SOCIAL_DOMAINS`, `is_social_url`;
* `src/app/scraper_module/parser.py` — `extract_links`, `contextual_extract`
  and the schema loop of `parse_html_content`;
* `src/app/scraper_module/fetcher.py` — `is_downloadable_file_link`,
  `download_file`, `process_pdf_with_plumber`, `process_document_content`,
  the per-file registry loop, `simulate_clicks_on_tabs` (click dedup skeleton)
  and `fetch_content_and_links`.

External collaborators are modelled as follows.  The fragment of CPython
`urllib.parse` actually exercised by the code (`urlparse`, `urlsplit`,
`urlunparse`, `urljoin`, scheme/netloc/query/fragment/params splitting,
the WHATWG control-character sanitisation and the bracketed-host mismatch
error) is translated from the CPython sources; host validation beyond the
bracket-mismatch check is elided, as no URL in this development carries a
bracketed host.  HTML documents are abstracted to the list of `href`
attributes of their anchor tags, which is the only part of the markup either
`extract_links` or the fetcher inspects.  Network, browser, filesystem and
pdfplumber effects are supplied by an explicit environment of oracles
(`FetchEnv`); the `re` module is modelled on the fragment used by the claims:
literal patterns compile and match case-insensitively, while any pattern
containing a regex metacharacter (in particular every pattern that is invalid
in Python, such as an unbalanced parenthesis) is outside the fragment and
maps to a compile failure.  Python string case-lowering is modelled on ASCII.
-/

namespace Scrape

/-- ASCII lowercase of one character, the fragment of Python `str.lower`
used by the sources (all strings compared by the code are ASCII). -/
def lowerChar (c : Char) : Char :=
  if h : 65 ≤ c.toNat ∧ c.toNat ≤ 90 then
    ⟨UInt32.ofNat (c.toNat + 32), by
      have hv : (UInt32.ofNat (c.toNat + 32)).toNat = (c.toNat + 32) % 4294967296 := rfl
      have hlt : c.toNat + 32 < 4294967296 := by omega
      refine Or.inl ?_
      have : (UInt32.ofNat (c.toNat + 32)).toNat = c.toNat + 32 := by
        rw [hv, Nat.mod_eq_of_lt hlt]
      show (UInt32.ofNat (c.toNat + 32)).toNat < 55296
      omega⟩
  else c

/-- Lowercase a character list. -/
def lowerL (l : List Char) : List Char := l.map lowerChar

/-- needle is a prefix of hay (Python `str.startswith` / `re.match` anchoring). -/
def startsWithL : List Char → List Char → Bool
  | [], _ => true
  | _ :: _, [] => false
  | a :: as, b :: bs => a == b && startsWithL as bs

/-- needle is a suffix of hay (Python `str.endswith`). -/
def endsWithL (n hay : List Char) : Bool := startsWithL n.reverse hay.reverse

/-- needle occurs as a contiguous substring of hay (Python `in` on strings). -/
def hasSubstr (n : List Char) : List Char → Bool
  | [] => n.isEmpty
  | h :: t => startsWithL n (h :: t) || hasSubstr n t

/-- Convert a character list back to a string. -/
def ofChars (l : List Char) : String := String.mk l

/-- Python `path.rstrip('/')`: drop every trailing slash. -/
def rstripSlash (l : List Char) : List Char :=
  (l.reverse.dropWhile (fun c => c == '/')).reverse

-- ------------------------------------------------------------------
-- Model of the used fragment of CPython urllib.parse
-- ------------------------------------------------------------------

/-- Characters legal inside a URL scheme (CPython `scheme_chars`):
ASCII letters, digits, and `+`, `-`, `.`. -/
def schemeChar (c : Char) : Bool :=
  (65 ≤ c.toNat && c.toNat ≤ 90) || (97 ≤ c.toNat && c.toNat ≤ 122) ||
  (48 ≤ c.toNat && c.toNat ≤ 57) || c == '+' || c == '-' || c == '.'

/-- The prefix before the first `:` qualifies as a scheme: nonempty, starts
with an ASCII letter, all characters in `scheme_chars` (CPython `urlsplit`). -/
def schemeOk (pre : List Char) : Bool :=
  match pre with
  | [] => false
  | c :: _ =>
    ((65 ≤ c.toNat && c.toNat ≤ 90) || (97 ≤ c.toNat && c.toNat ≤ 122)) &&
    pre.all schemeChar

/-- A character that may belong to the netloc: anything but `/`, `?`, `#`
(CPython `_splitnetloc`). -/
def netlocChar (c : Char) : Bool := !(c == '/' || c == '?' || c == '#')

/-- CPython `urlsplit` input sanitisation: strip leading C0-control/space
characters, then remove every tab, carriage return and newline. -/
def sanitizeUrl (l : List Char) : List Char :=
  (l.dropWhile (fun c => c.toNat ≤ 32)).filter
    (fun c => !(c == '\t' || c == '\r' || c == '\n'))

/-- Result of `urlsplit`. -/
structure SplitUrl where
  scheme : List Char
  netloc : List Char
  path : List Char
  query : List Char
  fragment : List Char
deriving DecidableEq, Repr

/-- The prefix of the sanitised URL before its first `:`
(the candidate scheme of CPython `urlsplit`). -/
def schemePre (url : List Char) : List Char :=
  (sanitizeUrl url).takeWhile (fun c => c != ':')

/-- CPython `urlsplit` recognises a scheme: a `:` exists and the prefix
before it qualifies. -/
def hasSchemeB (url : List Char) : Bool :=
  decide ((schemePre url).length < (sanitizeUrl url).length) && schemeOk (schemePre url)

/-- The sanitised URL with a recognised scheme and its `:` removed. -/
def restAfterScheme (url : List Char) : List Char :=
  if hasSchemeB url then (sanitizeUrl url).drop ((schemePre url).length + 1)
  else sanitizeUrl url

/-- CPython `urlsplit` parses a netloc exactly when the remainder starts
with `//`. -/
def hasNetlocB (url : List Char) : Bool := startsWithL ['/', '/'] (restAfterScheme url)

/-- The netloc: the characters after `//` up to the first `/`, `?` or `#`
(CPython `_splitnetloc`); empty when the remainder does not start with `//`. -/
def netlocOf (url : List Char) : List Char :=
  if hasNetlocB url then ((restAfterScheme url).drop 2).takeWhile netlocChar else []

/-- The remainder after removing the scheme and the netloc. -/
def rest2Of (url : List Char) : List Char :=
  if hasNetlocB url then ((restAfterScheme url).drop 2).dropWhile netlocChar
  else restAfterScheme url

/-- The remainder before its first `#` (fragment split). -/
def beforeFragOf (url : List Char) : List Char :=
  (rest2Of url).takeWhile (fun c => c != '#')

/-- The fragment: everything after the first `#` of the remainder. -/
def fragOf (url : List Char) : List Char :=
  ((rest2Of url).dropWhile (fun c => c != '#')).drop 1

/-- The path: the defragmented remainder before its first `?`. -/
def pathOf (url : List Char) : List Char :=
  (beforeFragOf url).takeWhile (fun c => c != '?')

/-- The query: everything after the first `?` of the defragmented remainder. -/
def queryOf (url : List Char) : List Char :=
  ((beforeFragOf url).dropWhile (fun c => c != '?')).drop 1

/-- CPython `urlsplit(url, scheme=default, allow_fragments=True)`. -/
def urlsplitL (url0 : List Char) (defaultScheme : List Char) : SplitUrl :=
  ⟨if hasSchemeB url0 then lowerL (schemePre url0) else defaultScheme,
   netlocOf url0, pathOf url0, queryOf url0, fragOf url0⟩

/-- CPython `urlsplit` raises `ValueError` ("Invalid IPv6 URL") when the
netloc contains one bracket but not the other.  (Further bracketed-host
validation is elided: no URL in this development has a bracketed host.) -/
def urlsplitFails (url0 : List Char) : Bool :=
  (netlocOf url0).contains '[' != (netlocOf url0).contains ']'

/-- Strip the `params` component off a path (CPython `_splitparams`):
the part of the last path segment after its first `;`. -/
def splitParams (p : List Char) : List Char × List Char :=
  if p.contains '/' then
    let segRev := p.reverse.takeWhile (fun c => c != '/')
    let preRev := p.reverse.dropWhile (fun c => c != '/')
    let seg := segRev.reverse
    if seg.contains ';' then
      (preRev.reverse ++ seg.takeWhile (fun c => c != ';'),
       (seg.dropWhile (fun c => c != ';')).drop 1)
    else (p, [])
  else
    if p.contains ';' then
      (p.takeWhile (fun c => c != ';'), (p.dropWhile (fun c => c != ';')).drop 1)
    else (p, [])

/-- Result of `urlparse` (a `SplitUrl` with params split off the path). -/
structure ParsedUrl where
  scheme : List Char
  netloc : List Char
  path : List Char
  params : List Char
  query : List Char
  fragment : List Char
deriving DecidableEq, Repr

/-- CPython `urlparse(url, scheme=default, allow_fragments=True)`. -/
def urlparseL (url : List Char) (defaultScheme : List Char) : ParsedUrl :=
  let s := urlsplitL url defaultScheme
  let pp := splitParams s.path
  ⟨s.scheme, s.netloc, pp.1, pp.2, s.query, s.fragment⟩

/-- CPython `urlunsplit`. -/
def urlunsplitL (scheme netloc path query fragment : List Char) : List Char :=
  let u1 :=
    if netloc ≠ [] ∨ startsWithL ['/', '/'] path then
      ['/', '/'] ++ netloc ++
        (if path ≠ [] ∧ ¬ startsWithL ['/'] path then '/' :: path else path)
    else path
  let u2 := if scheme ≠ [] then scheme ++ [':'] ++ u1 else u1
  let u3 := if query ≠ [] then u2 ++ ['?'] ++ query else u2
  if fragment ≠ [] then u3 ++ ['#'] ++ fragment else u3

/-- CPython `urlunparse`. -/
def urlunparseL (p : ParsedUrl) : List Char :=
  let withParams := if p.params ≠ [] then p.path ++ [';'] ++ p.params else p.path
  urlunsplitL p.scheme p.netloc withParams p.query p.fragment

/-- CPython `uses_relative`. -/
def usesRelativeL : List (List Char) :=
  ["", "ftp", "http", "gopher", "nntp", "imap", "wais", "file", "https",
   "shttp", "mms", "prospero", "rtsp", "rtspu", "sftp", "svn", "svn+ssh",
   "ws", "wss"].map String.toList

/-- CPython `uses_netloc`. -/
def usesNetlocL : List (List Char) :=
  ["", "ftp", "http", "gopher", "nntp", "telnet", "imap", "wais", "file",
   "mms", "https", "shttp", "snews", "prospero", "rtsp", "rtspu", "rsync",
   "svn", "svn+ssh", "sftp", "nfs", "git", "git+ssh", "ws", "wss",
   "itms-services"].map String.toList

/-- CPython `urljoin`: keep first and last path segment, drop empty middles
(the `segments[1:-1] = filter(None, segments[1:-1])` step). -/
def filterMiddle (segs : List (List Char)) : List (List Char) :=
  match segs with
  | [] => []
  | [x] => [x]
  | x :: rest => x :: (rest.dropLast.filter (fun s => !s.isEmpty) ++ [rest.getLastD []])

/-- CPython `urljoin` dot-segment resolution loop. -/
def resolveSegs (segs : List (List Char)) : List (List Char) :=
  segs.foldl
    (fun acc seg =>
      if seg = ['.', '.'] then acc.dropLast
      else if seg = ['.'] then acc
      else acc ++ [seg]) []

/-- CPython `urljoin(base, url)`. -/
def urljoinL (base url : List Char) : List Char :=
  if base = [] then url
  else if url = [] then base
  else
    let b := urlparseL base []
    let u := urlparseL url b.scheme
    if u.scheme ≠ b.scheme ∨ ¬ (u.scheme ∈ usesRelativeL) then url
    else
      let inNetloc := u.scheme ∈ usesNetlocL
      if inNetloc ∧ u.netloc ≠ [] then urlunparseL u
      else
        let netloc := if inNetloc then b.netloc else u.netloc
        if u.path = [] ∧ u.params = [] then
          let q := if u.query = [] then b.query else u.query
          urlunparseL ⟨u.scheme, netloc, b.path, b.params, q, u.fragment⟩
        else
          let baseParts0 := List.splitOn '/' b.path
          let baseParts :=
            if baseParts0.getLastD [] ≠ [] then baseParts0.dropLast else baseParts0
          let segments :=
            if startsWithL ['/'] u.path then List.splitOn '/' u.path
            else filterMiddle (baseParts ++ List.splitOn '/' u.path)
          let resolved0 := resolveSegs segments
          let resolved :=
            if segments.getLastD [] = ['.'] ∨ segments.getLastD [] = ['.', '.']
            then resolved0 ++ [[]] else resolved0
          let joined := List.intercalate ['/'] resolved
          let path2 := if joined = [] then ['/'] else joined
          urlunparseL ⟨u.scheme, netloc, path2, u.params, u.query, u.fragment⟩

-- ------------------------------------------------------------------
-- src/app/main.py : normalize_url
-- ------------------------------------------------------------------

/-- `normalize_url` (src/app/main.py, lines 24-34): rebuild
`scheme + "://" + netloc + path.rstrip('/')`; the `except` branch (reached
exactly when `urlparse` raises, i.e. on a bracket-mismatched netloc in the
modelled fragment) returns the input unchanged. -/
def normalize_url (u : String) : String :=
  if urlsplitFails u.toList then u
  else
    let p := urlparseL u.toList []
    ofChars (p.scheme ++ (String.toList "://") ++ p.netloc ++ rstripSlash p.path)

-- ------------------------------------------------------------------
-- src/app/scraper_module/filter.py
-- ------------------------------------------------------------------

/-- `SOCIAL_DOMAINS` (src/app/scraper_module/filter.py). -/
def SOCIAL_DOMAINS : List String :=
  ["facebook.com", "instagram.com", "twitter.com", "x.com", "linkedin.com",
   "youtube.com", "tiktok.com", "pinterest.com", "snapchat.com", "threads.net"]

/-- `is_social_url` (src/app/scraper_module/filter.py): empty input is not
social; otherwise any blocklisted domain occurring as a substring of the
lowercased URL makes it social. -/
def is_social_url (url : String) : Bool :=
  if url = "" then false
  else SOCIAL_DOMAINS.any (fun d => hasSubstr d.toList (lowerL url.toList))

-- ------------------------------------------------------------------
-- src/app/scraper_module/parser.py : extract_links
-- ------------------------------------------------------------------

/-- One step of the `extract_links` anchor loop (parser.py, lines 143-173).
The markup is abstracted to the list of anchor `href` attributes in document
order; the Python set of results is modelled as an insertion-ordered
duplicate-free list.  A `urllib.parse` failure inside the per-anchor `try`
(bracket-mismatched netloc in the modelled fragment) skips the anchor. -/
def extractLinkStep (base_url : String) (base_domain : List Char)
    (acc : List String) (href : String) : List String :=
  if href = "" then acc
  else if urlsplitFails base_url.toList ∨ urlsplitFails href.toList ∨
          urlsplitFails (urljoinL base_url.toList href.toList) then acc
  else
    let full := urljoinL base_url.toList href.toList
    let pl := urlparseL full []
    if ¬ (pl.scheme = "http".toList ∨ pl.scheme = "https".toList) then acc
    else if base_domain ≠ [] ∧ pl.netloc ≠ base_domain then acc
    else
      let clean := ofChars (urlunparseL ⟨pl.scheme, pl.netloc, pl.path, pl.params, [], []⟩)
      if startsWithL "mailto:".toList (lowerL clean.toList) ∨
         startsWithL "javascript:".toList (lowerL clean.toList) then acc
      else if is_social_url clean then acc
      else if clean ∈ acc then acc
      else acc ++ [clean]

/-- `extract_links` (src/app/scraper_module/parser.py, lines 125-176):
resolve each href against the base URL, keep http/https same-domain links,
drop query and fragment, drop mailto/javascript and social-domain links. -/
def extract_links (hrefs : List String) (base_url : String) : List String :=
  let base_domain :=
    if urlsplitFails base_url.toList then []
    else (urlsplitL base_url.toList []).netloc
  hrefs.foldl (extractLinkStep base_url base_domain) []

-- ------------------------------------------------------------------
-- src/app/scraper_module/parser.py : contextual extraction engine
-- ------------------------------------------------------------------

/-- One schema entry (`GLOBAL_EXTRACTION_SCHEMA` value shape):
`keywords`, `value_pattern`, `multi_value` (defaulting to true, as
`variable_config.get("multi_value", True)` does). -/
structure VarConfig where
  keywords : List String := []
  value_pattern : Option String := none
  multi_value : Bool := true
deriving DecidableEq, Repr

/-- Result of `contextual_extract`: a single best value or a list of
distinct values in first-occurrence order. -/
inductive ExtractResult where
  | single : String → ExtractResult
  | multi : List String → ExtractResult
deriving DecidableEq, Repr

/-- Regex metacharacters.  The model of the `re` module covers the literal
fragment: a pattern containing any of these (in particular an unbalanced
parenthesis, which Python rejects with `re.error`) is outside the fragment
and maps to a compile failure. -/
def regexMeta : List Char :=
  ['(', ')', '[', ']', '\\', '|', '*', '+', '?', '.', '^', '$',
   Char.ofNat 123, Char.ofNat 125]

/-- Model of `re.compile(pattern, re.IGNORECASE)` on the literal fragment. -/
def compileModel (pat : String) : Option (List Char) :=
  if pat.toList.any (fun c => regexMeta.contains c) then none
  else some pat.toList

/-- Model of `regex.finditer(text)` for a compiled literal: leftmost,
non-overlapping, case-insensitive occurrences with their spans; the match
value is the actual slice of the text (as `match.group(0)` is). -/
def findMatchesAux (lit : List Char) : Nat → Nat → List Char → List (Nat × List Char)
  | 0, _, _ => []
  | _ + 1, _, [] => []
  | fuel + 1, pos, c :: rest =>
    if lit.length ≤ (c :: rest).length ∧ lowerL ((c :: rest).take lit.length) = lowerL lit then
      (pos, (c :: rest).take lit.length) ::
        findMatchesAux lit fuel (pos + lit.length) ((c :: rest).drop lit.length)
    else
      findMatchesAux lit fuel (pos + 1) rest

/-- All matches of a compiled literal in a text. -/
def findMatches (lit text : List Char) : List (Nat × List Char) :=
  findMatchesAux lit (text.length + 1) 0 text

/-- Python `str.strip()` (ASCII whitespace). -/
def wsChar (c : Char) : Bool := c.toNat == 32 || (9 ≤ c.toNat && c.toNat ≤ 13)

/-- Strip ASCII whitespace from both ends. -/
def stripStr (s : List Char) : List Char :=
  ((s.dropWhile wsChar).reverse.dropWhile wsChar).reverse

/-- Score of one match window: +1 per configured keyword present in the
lowercased window, or 1 unconditionally if the entry has no keywords. -/
def scoreWindow (keywords : List String) (window : List Char) : Nat :=
  if keywords = [] then 1
  else keywords.foldl
    (fun acc kw => if hasSubstr (lowerL kw.toList) window then acc + 1 else acc) 0

/-- A surviving scored candidate. -/
structure Scored where
  value : List Char
  score : Nat
deriving DecidableEq, Repr

/-- `max(scored_candidates, key=...)`: Python `max` keeps the first of the
ties, replacing only on a strictly greater score. -/
def bestByScore (cands : List Scored) : List Char :=
  (cands.foldl
    (fun best c =>
      match best with
      | none => some c
      | some b => if b.score < c.score then some c else some b) none).elim [] Scored.value

/-- Keep the first occurrence of each distinct value (the `seen` set loop). -/
def dedupKeepOrder (vs : List (List Char)) : List (List Char) :=
  vs.foldl (fun acc v => if v ∈ acc then acc else acc ++ [v]) []

/-- `contextual_extract` (src/app/scraper_module/parser.py, lines 182-265). -/
def contextual_extract (text : String) (cfg : VarConfig)
    (windowChars : Nat := 50) : Option ExtractResult :=
  if text = "" then none
  else
    match cfg.value_pattern with
    | none => none
    | some pat =>
      if pat = "" then none
      else
        match compileModel pat with
        | none => none
        | some lit =>
          let tl := text.toList
          let cands := (findMatches lit tl).foldl
            (fun acc m =>
              let value := stripStr m.2
              if value = [] then acc
              else
                let cstart := m.1 - windowChars
                let cend := min tl.length (m.1 + m.2.length + windowChars)
                let window := lowerL ((tl.drop cstart).take (cend - cstart))
                let score := scoreWindow cfg.keywords window
                if 0 < score then acc ++ [⟨value, score⟩] else acc) []
          if cands = [] then none
          else if cfg.multi_value = false then
            some (ExtractResult.single (ofChars (bestByScore cands)))
          else
            let vals := dedupKeepOrder (cands.map Scored.value)
            if vals = [] then none
            else some (ExtractResult.multi (vals.map ofChars))

/-- The schema loop of `parse_html_content` (parser.py, lines 88-103): each
entry is extracted independently; a `None` result (missing/invalid pattern
or no match) skips that entry only. -/
def parseSchemaLoop (text : String) (schema : List (String × VarConfig)) :
    List (String × ExtractResult) :=
  schema.foldl
    (fun acc e =>
      match contextual_extract text e.2 with
      | some r => acc ++ [(e.1, r)]
      | none => acc) []

-- ------------------------------------------------------------------
-- src/app/scraper_module/fetcher.py
-- ------------------------------------------------------------------

/-- `DOWNLOADABLE_EXTENSIONS` (fetcher.py, line 14). -/
def DOWNLOADABLE_EXTENSIONS : List String :=
  [".pdf", ".doc", ".docx", ".xls", ".xlsx", ".zip", ".mp4", ".jpg", ".png"]

/-- `is_downloadable_file_link` (fetcher.py, lines 23-26): the lowercased
path of the URL ends with one of the downloadable extensions. -/
def is_downloadable_file_link (url : String) : Bool :=
  let path := lowerL (urlparseL url.toList []).path
  DOWNLOADABLE_EXTENSIONS.any (fun ext => endsWithL ext.toList path)

/-- `os.path.basename` for POSIX paths: the part after the last `/`. -/
def basenameL (p : List Char) : List Char :=
  (p.reverse.takeWhile (fun c => c != '/')).reverse

/-- The extension produced by `os.path.splitext(p)[1]`: from the last dot of
the final path component, provided some earlier character of that component
is not a dot (so `.bashrc` has no extension). -/
def splitextExt (p : List Char) : List Char :=
  let b := basenameL p
  match b.reverse.dropWhile (fun c => c != '.') with
  | [] => []
  | _ :: before =>
    if before.all (fun c => c == '.') then []
    else '.' :: (b.reverse.takeWhile (fun c => c != '.')).reverse

/-- Python `str.strip('.')`. -/
def stripDots (l : List Char) : List Char :=
  ((l.dropWhile (fun c => c == '.')).reverse.dropWhile (fun c => c == '.')).reverse

/-- One scraped-file output record (the dict built by
`process_document_content` plus the `file_url` key the caller adds). -/
structure FileRecord where
  file_url : String := ""
  file_name : String
  file_type : String
  content_text : Option String
  content_tables_json : Option String
deriving DecidableEq, Repr

/-- Body of a successful static HTTP response: its content type and the
anchor hrefs of its markup (the only parts of `response` the code reads
besides raising on status). -/
structure StaticResp where
  contentType : String
  hrefs : List String
deriving Repr

/-- Oracle environment for every external effect of the fetcher: network
(static GET and per-file download), pdfplumber extraction, and the
Playwright session (launch, page creation, navigation, the links revealed
by click simulation and the final DOM anchors).  A `none`/`false` oracle
value means the corresponding Python call raises. -/
structure FetchEnv where
  staticResp : String → Option StaticResp
  downloadOk : String → Bool
  pdfOk : String → Bool
  pdfText : String → String
  pdfTablesJson : String → String
  launchOk : Bool
  newPageOk : Bool
  gotoOk : String → Bool
  revealedLinks : String → List String
  finalHrefs : String → List String

/-- `download_file` (fetcher.py, lines 28-55): on network failure (a
`requests.RequestException`, caught inside) returns `None`; otherwise the
scratch path `my_downloads/<basename of url path, cut at first question
mark>`. -/
def safeFilename (file_url : String) : String :=
  ofChars ((basenameL (urlparseL file_url.toList []).path).takeWhile (fun c => c != '?'))

/-- The scratch path `download_file` writes to. -/
def download_file (env : FetchEnv) (file_url : String) : Option String :=
  if env.downloadOk file_url then some ("my_downloads/" ++ safeFilename file_url)
  else none

/-- Extracted pdfplumber payload. -/
structure PdfData where
  content_text : String
  tablesJson : String
deriving DecidableEq, Repr

/-- `process_pdf_with_plumber` (fetcher.py, lines 57-77): the first
component is the extraction result (`None` when pdfplumber raises, caught
inside); the second records whether the scratch file was removed — the
`finally` block always removes it. -/
def process_pdf_with_plumber (env : FetchEnv) (file_path : String) :
    Option PdfData × Bool :=
  (if env.pdfOk file_path then some ⟨env.pdfText file_path, env.pdfTablesJson file_path⟩
   else none, true)

/-- `process_document_content` (fetcher.py, lines 79-106): pdf files go
through pdfplumber (whose `finally` removes the scratch file); a failed pdf
extraction falls through to the metadata-only record; every other extension
returns the metadata-only record without touching the scratch file.  The
second component records whether the scratch file was removed. -/
def process_document_content (env : FetchEnv) (file_path file_url : String) :
    Option FileRecord × Bool :=
  let ext := ofChars (lowerL (splitextExt file_path.toList))
  let name := ofChars (basenameL (urlparseL file_url.toList []).path)
  if ext = ".pdf" then
    let r := process_pdf_with_plumber env file_path
    match r.1 with
    | some d =>
      (some { file_name := name, file_type := "pdf",
              content_text := some d.content_text,
              content_tables_json := some d.tablesJson }, r.2)
    | none =>
      (some { file_name := name, file_type := ofChars (stripDots ext.toList),
              content_text := none, content_tables_json := none }, r.2)
  else
    (some { file_name := name, file_type := ofChars (stripDots ext.toList),
            content_text := none, content_tables_json := none }, false)

/-- One iteration of the per-file loop shared by the static path
(fetcher.py, lines 220-236) and the dynamic path (lines 284-295): skip URLs
already in `PROCESSED_FILE_URLS`; on successful download and processing,
append the record (with `file_url` set) and register the URL.  The
accumulator is `(scraped_files, PROCESSED_FILE_URLS)`. -/
def fetchFileStep (env : FetchEnv) (acc : List FileRecord × List String)
    (file_url : String) : List FileRecord × List String :=
  if file_url ∈ acc.2 then acc
  else
    match download_file env file_url with
    | none => acc
    | some local_path =>
      match (process_document_content env local_path file_url).1 with
      | some doc => (acc.1 ++ [{ doc with file_url := file_url }], acc.2 ++ [file_url])
      | none => acc

/-- The whole per-file loop over one page's file links, starting from an
empty `scraped_files` list and the current run-wide registry. -/
def fetchFilesLoop (env : FetchEnv) (reg : List String) (file_links : List String) :
    List FileRecord × List String :=
  file_links.foldl (fetchFileStep env) ([], reg)

/-- The keyword test choosing the static/API path (fetcher.py, line 194):
`any(keyword in url.lower() for keyword in ['api', '.json', '.xml'])`. -/
def isApiLike (url : String) : Bool :=
  hasSubstr "api".toList (lowerL url.toList) ||
  hasSubstr ".json".toList (lowerL url.toList) ||
  hasSubstr ".xml".toList (lowerL url.toList)

/-- The result dict of `fetch_content_and_links`, restricted to the fields
the orchestrator and the claims inspect (`url`, `type`, `error`, `links`,
`scraped_files`); the opaque payload fields (`data`, `raw_html`) carry no
control flow and are elided. -/
structure FetchResult where
  url : String
  rtype : Option String := none
  error : Option String := none
  links : List String := []
  scraped_files : List FileRecord := []
deriving Repr

/-- Outcome of a Python call: a normal return, or an exception escaping it. -/
inductive PyResult (α : Type) where
  | ok : α → PyResult α
  | exn : String → PyResult α
deriving Repr

/-- The consolidation loop of the dynamic path (fetcher.py, lines 304-310):
add the non-file links of the final DOM that are not already present. -/
def consolidateLinks (incremental : List String) (finalLinks : List String) :
    List String :=
  finalLinks.foldl
    (fun acc link =>
      if is_downloadable_file_link link = false ∧ link ∉ acc then acc ++ [link]
      else acc) incremental

/-- `fetch_content_and_links` (fetcher.py, lines 187-328), threading the
run-wide `PROCESSED_FILE_URLS` registry explicitly.

Static/API path: only `requests.RequestException` is caught, and the modelled
failure points inside the `try` raise nothing else.  Dynamic path: browser
launch and page creation happen BEFORE the `try` (lines 256-258), so their
failures escape as exceptions (`PyResult.exn`); failures from `page.goto`
onward are caught and turned into an error dict.  When the click simulation
reveals no links, `incremental_page_links` is never assigned (line 282) and
line 306 raises `NameError`, which the same handler catches, yielding an
error dict with empty links (the handler's `locals()` test finds
`scraped_files` but not `incremental_page_links`). -/
def fetch_content_and_links (env : FetchEnv) (reg : List String) (url : String) :
    PyResult (FetchResult × List String) :=
  if isApiLike url then
    match env.staticResp url with
    | none => .ok ({ url := url, error := some "Request failed" }, reg)
    | some resp =>
      if hasSubstr "application/json".toList (lowerL resp.contentType.toList) ||
         hasSubstr "xml".toList (lowerL resp.contentType.toList) then
        .ok ({ url := url, rtype := some "API" }, reg)
      else
        let all_links := extract_links resp.hrefs url
        let page_links := all_links.filter (fun l => !is_downloadable_file_link l)
        let file_links := all_links.filter (fun l => is_downloadable_file_link l)
        let fl := fetchFilesLoop env reg file_links
        .ok ({ url := url, rtype := some "STATIC_HTML", links := page_links,
               scraped_files := fl.1 }, fl.2)
  else
    if env.launchOk = false then .exn "chromium.launch raised"
    else if env.newPageOk = false then .exn "new_page raised"
    else if env.gotoOk url = false then
      .ok ({ url := url, error := some "Playwright failed: goto" }, reg)
    else
      let revealed := env.revealedLinks url
      if revealed = [] then
        .ok ({ url := url,
               error := some "Playwright failed: NameError: incremental_page_links" }, reg)
      else
        let new_file_links := revealed.filter (fun l => is_downloadable_file_link l)
        let incremental_page_links := revealed.filter (fun l => !is_downloadable_file_link l)
        let fl := fetchFilesLoop env reg new_file_links
        let all_final := extract_links (env.finalHrefs url) url
        let page_links := consolidateLinks incremental_page_links all_final
        .ok ({ url := url, rtype := some "DYNAMIC_HTML", links := page_links,
               scraped_files := fl.1 }, fl.2)

/-- A crawl run as the orchestrator drives it: fetch each frontier URL in
turn, threading the run-wide registry; an escaped exception kills the
process, so no further records are produced. -/
def crawlRun (env : FetchEnv) : List String → List String → List FileRecord
  | _, [] => []
  | reg, u :: rest =>
    match fetch_content_and_links env reg u with
    | .ok (r, reg1) => r.scraped_files ++ crawlRun env reg1 rest
    | .exn _ => []

/-- A run of the per-file loop over the file-link lists of successive pages
(as produced by either fetch path), threading the registry. -/
def pagesRun (env : FetchEnv) : List String → List (List String) → List FileRecord
  | _, [] => []
  | reg, p :: rest =>
    let fl := fetchFilesLoop env reg p
    fl.1 ++ pagesRun env fl.2 rest

/-- Number of records a run produced for one file URL. -/
def countFor (f : String) (records : List FileRecord) : Nat :=
  (records.filter (fun r => r.file_url == f)).length

-- ------------------------------------------------------------------
-- src/app/scraper_module/fetcher.py : simulate_clicks_on_tabs
-- ------------------------------------------------------------------

/-- One candidate element of the click catalog: the selector that matched
it, its stripped visible text, and whether it is currently active.  A page
visit is the list of candidates in iteration order (selector catalog order,
then locator index). -/
structure PageElement where
  selector : String
  text : String
  active : Bool
deriving DecidableEq, Repr

/-- One candidate of the `simulate_clicks_on_tabs` loop body: elements with
empty text, already-clicked keys, and active elements are skipped; a clicked
key is registered in the page-local set immediately after its click.  The
accumulator is `(clicks so far, clicked_elements_key)`. -/
def clickStep (acc : List (String × String) × List (String × String))
    (e : PageElement) : List (String × String) × List (String × String) :=
  if e.text = "" ∨ (e.selector, e.text) ∈ acc.2 then acc
  else if e.active then acc
  else (acc.1 ++ [(e.selector, e.text)], acc.2 ++ [(e.selector, e.text)])

/-- `simulate_clicks_on_tabs` (fetcher.py, lines 110-183), restricted to its
click-dedup skeleton: the clicked-key set `clicked_elements_key` is LOCAL to
one page visit (line 130); `GLOBAL_CLICKED_ELEMENTS` (line 21) is never read
or written.  Returns the element keys `(selector, text)` clicked, in order. -/
def simulate_clicks_on_tabs (page : List PageElement) : List (String × String) :=
  (page.foldl clickStep ([], [])).1

/-- The click lists of successive dynamic page visits of one crawl run: the
engine shares no state between visits, so each page is simulated afresh. -/
def runClicks (pages : List (List PageElement)) : List (List (String × String)) :=
  pages.map simulate_clicks_on_tabs

-- ------------------------------------------------------------------
-- src/app/main.py : the orchestrator loop
-- ------------------------------------------------------------------

/-- Orchestrator state: the frontier `crawl_queue` of
`(normalized_url, depth, base_domain)` entries, and the `visited_urls` and
`queued_urls` sets (modelled as membership lists). -/
structure CrawlState where
  queue : List (String × Nat × String)
  visited : List String
  queued : List String
deriving Repr

/-- The link-discovery loop body (main.py, lines 146-163): normalize the
link, keep it when its raw netloc equals the entry's base domain, it is not
yet visited or queued, and it is not social; enqueue at the next depth and
mark it queued. -/
def enqueueStep (next_depth : Nat) (base : String) (visited : List String)
    (acc : List (String × Nat × String) × List String) (link : String) :
    List (String × Nat × String) × List String :=
  let n := normalize_url link
  if ofChars (urlparseL link.toList []).netloc = base ∧
     n ∉ visited ∧ n ∉ acc.2 ∧ is_social_url n = false then
    (acc.1 ++ [(n, next_depth, base)], acc.2 ++ [n])
  else acc

/-- One iteration of the `while crawl_queue` loop of `run_system` (main.py,
lines 76-170), parameterised by the links the fetch returns for the
processed URL: dequeue and discard from `queued_urls`; skip if visited or
beyond the depth limit; otherwise mark visited BEFORE the fetch, then
enqueue the discovered links when the next depth is within bounds. -/
def crawlStep (maxDepth : Nat) (fetchLinks : String → List String)
    (s : CrawlState) : CrawlState :=
  match s.queue with
  | [] => s
  | (url, depth, base) :: rest =>
    let queued1 := s.queued.filter (fun x => x ≠ url)
    if url ∈ s.visited then ⟨rest, s.visited, queued1⟩
    else if maxDepth < depth then ⟨rest, s.visited, queued1⟩
    else
      let visited1 := s.visited ++ [url]
      if depth + 1 ≤ maxDepth then
        let r := (fetchLinks url).foldl (enqueueStep (depth + 1) base visited1)
          (rest, queued1)
        ⟨r.1, visited1, r.2⟩
      else ⟨rest, visited1, queued1⟩

-- ------------------------------------------------------------------
-- Auxiliary definitions used by the statements below
-- ------------------------------------------------------------------

/-- The reconstructed URL `scheme://netloc + path` as a character list:
the shape of every `normalize_url` output built from a successful parse. -/
def reconUrl (s n p : List Char) : List Char := s ++ ':' :: '/' :: '/' :: (n ++ p)

/-- The URLs on which `normalize_url` is idempotent (besides parse
failures): the parse finds an explicit scheme and a `//` netloc marker, and
the pre-params path carries no `;`.  Every absolute http/https URL without a
semicolon path segment is of this form. -/
def schemeNetlocForm (u : String) : Bool :=
  hasSchemeB u.toList && hasNetlocB u.toList && !(pathOf u.toList).contains ';'

/-- Oracle environment in which every external effect succeeds and the
rendered page reveals nothing. -/
def envAllOk : FetchEnv :=
  { staticResp := fun _ => none, downloadOk := fun _ => true, pdfOk := fun _ => true,
    pdfText := fun _ => "extracted text", pdfTablesJson := fun _ => "[]",
    launchOk := true, newPageOk := true, gotoOk := fun _ => true,
    revealedLinks := fun _ => [], finalHrefs := fun _ => [] }

/-- Environment in which `p.chromium.launch` raises. -/
def envNoLaunch : FetchEnv := { envAllOk with launchOk := false }

/-- Environment in which every per-file download raises a RequestException. -/
def envNoDownload : FetchEnv := { envAllOk with downloadOk := fun _ => false }

/-- Environment in which pdfplumber raises on every file. -/
def envNoPdf : FetchEnv := { envAllOk with pdfOk := fun _ => false }

/-- The canonical form `extract_links` emits for one anchor: the resolved
URL with its query and fragment erased. -/
def cleanLinkOf (base href : String) : String :=
  ofChars (urlunparseL
    { urlparseL (urljoinL base.toList href.toList) [] with query := [], fragment := [] })

/-- What membership of the `extract_links` output guarantees about a link:
it is the cleaned resolution of some anchor whose parse has scheme http or
https, and it passed the mailto/javascript and social filters. -/
def keptLinkSpec (base href u : String) : Prop :=
  ((urlparseL (urljoinL base.toList href.toList) []).scheme = "http".toList ∨
   (urlparseL (urljoinL base.toList href.toList) []).scheme = "https".toList) ∧
  u = cleanLinkOf base href ∧
  is_social_url u = false ∧
  startsWithL ("mailto:".toList) (lowerL u.toList) = false ∧
  startsWithL ("javascript:".toList) (lowerL u.toList) = false

-- ------------------------------------------------------------------
-- Helper lemmas: characters
-- ------------------------------------------------------------------

theorem toNat_lowerChar (c : Char) :
    (lowerChar c).toNat = if 65 ≤ c.toNat ∧ c.toNat ≤ 90 then c.toNat + 32 else c.toNat := by
  unfold lowerChar
  split
  case isTrue h =>
    show (UInt32.ofNat (c.toNat + 32)).toNat = c.toNat + 32
    have hv : (UInt32.ofNat (c.toNat + 32)).toNat = (c.toNat + 32) % 4294967296 := rfl
    rw [hv, Nat.mod_eq_of_lt (by omega)]
  case isFalse h => rfl

theorem lowerChar_eq_of_not_upper (c : Char) (h : ¬ (65 ≤ c.toNat ∧ c.toNat ≤ 90)) :
    lowerChar c = c := by
  unfold lowerChar
  exact dif_neg h

theorem lowerChar_idem (c : Char) : lowerChar (lowerChar c) = lowerChar c := by
  by_cases h : 65 ≤ c.toNat ∧ c.toNat ≤ 90
  · have ht : (lowerChar c).toNat = c.toNat + 32 := by rw [toNat_lowerChar, if_pos h]
    exact lowerChar_eq_of_not_upper _ (by omega)
  · rw [lowerChar_eq_of_not_upper c h]
    exact lowerChar_eq_of_not_upper c h

theorem lowerL_idem (l : List Char) : lowerL (lowerL l) = lowerL l := by
  induction l with
  | nil => rfl
  | cons a t ih => simp only [lowerL, List.map_cons] at ih ⊢; rw [lowerChar_idem, ih]

theorem schemeChar_lowerChar (c : Char) (h : schemeChar c = true) :
    schemeChar (lowerChar c) = true := by
  by_cases hu : 65 ≤ c.toNat ∧ c.toNat ≤ 90
  · have ht : (lowerChar c).toNat = c.toNat + 32 := by rw [toNat_lowerChar, if_pos hu]
    simp only [schemeChar, Bool.or_eq_true, Bool.and_eq_true, decide_eq_true_eq]
    left; left; left; left; right
    constructor <;> [skip; skip] <;> omega
  · rw [lowerChar_eq_of_not_upper c hu]; exact h

theorem schemeOk_head_gt32 (pre : List Char) (h : schemeOk pre = true) :
    pre = [] ∨ ∃ c t, pre = c :: t ∧ 32 < c.toNat := by
  cases pre with
  | nil => exact Or.inl rfl
  | cons c t =>
    refine Or.inr ⟨c, t, rfl, ?_⟩
    simp only [schemeOk, Bool.and_eq_true, Bool.or_eq_true, decide_eq_true_eq] at h
    rcases h.1 with ⟨h1, _⟩ | ⟨h1, _⟩ <;> omega

theorem schemeOk_lowerL (pre : List Char) (h : schemeOk pre = true) :
    schemeOk (lowerL pre) = true := by
  cases pre with
  | nil => exact h
  | cons c t =>
    simp only [schemeOk, lowerL, List.map_cons, Bool.and_eq_true, Bool.or_eq_true,
      decide_eq_true_eq, List.all_eq_true] at h ⊢
    refine ⟨?_, ?_⟩
    · by_cases hu : 65 ≤ c.toNat ∧ c.toNat ≤ 90
      · have ht : (lowerChar c).toNat = c.toNat + 32 := by rw [toNat_lowerChar, if_pos hu]
        right; omega
      · rw [lowerChar_eq_of_not_upper c hu]; exact h.1
    · intro x hx
      rcases List.mem_cons.mp hx with rfl | hx
      · exact schemeChar_lowerChar c (h.2 c (by simp))
      · simp only [List.mem_map] at hx
        obtain ⟨y, hy, rfl⟩ := hx
        exact schemeChar_lowerChar y (h.2 y (by simp [hy]))

theorem schemeChar_ne_special (c : Char) (h : schemeChar c = true) :
    c ≠ ':' ∧ c ≠ '/' ∧ c ≠ '#' ∧ c ≠ '?' ∧ c ≠ ';' ∧ c ≠ '\t' ∧ c ≠ '\r' ∧ c ≠ '\n' := by
  refine ⟨?_, ?_, ?_, ?_, ?_, ?_, ?_, ?_⟩ <;>
    (intro e; subst e; exact absurd h (by decide))

theorem netlocChar_ne (c : Char) (h : netlocChar c = true) :
    c ≠ '/' ∧ c ≠ '?' ∧ c ≠ '#' := by
  refine ⟨?_, ?_, ?_⟩ <;> (intro e; subst e; exact absurd h (by decide))

-- ------------------------------------------------------------------
-- Helper lemmas: lists
-- ------------------------------------------------------------------

theorem takeWhile_append_all {p : Char → Bool} (l1 l2 : List Char)
    (h : ∀ a ∈ l1, p a = true) :
    (l1 ++ l2).takeWhile p = l1 ++ l2.takeWhile p := by
  induction l1 with
  | nil => simp
  | cons a t ih =>
    simp only [List.cons_append, List.takeWhile_cons, h a (by simp), if_true]
    rw [ih (fun x hx => h x (by simp [hx]))]

theorem dropWhile_append_all {p : Char → Bool} (l1 l2 : List Char)
    (h : ∀ a ∈ l1, p a = true) :
    (l1 ++ l2).dropWhile p = l2.dropWhile p := by
  induction l1 with
  | nil => simp
  | cons a t ih =>
    simp only [List.cons_append, List.dropWhile_cons, h a (by simp), if_true]
    exact ih (fun x hx => h x (by simp [hx]))

theorem takeWhile_all {p : Char → Bool} (l : List Char) (h : ∀ a ∈ l, p a = true) :
    l.takeWhile p = l := by
  have := takeWhile_append_all (p := p) l [] h
  simpa using this

theorem dropWhile_all {p : Char → Bool} (l : List Char) (h : ∀ a ∈ l, p a = true) :
    l.dropWhile p = [] := by
  have := dropWhile_append_all (p := p) l [] h
  simpa using this

theorem dropWhile_head_false {p : Char → Bool} {l : List Char} {a : Char} {t : List Char}
    (h : l.dropWhile p = a :: t) : p a = false := by
  induction l with
  | nil => simp at h
  | cons b bt ih =>
    rw [List.dropWhile_cons] at h
    by_cases hb : p b = true
    · rw [if_pos hb] at h; exact ih h
    · rw [if_neg hb] at h
      cases h
      exact Bool.not_eq_true _ ▸ (by simpa using hb)

theorem mem_of_mem_dropWhile {p : Char → Bool} {l : List Char} {a : Char}
    (h : a ∈ l.dropWhile p) : a ∈ l :=
  (List.dropWhile_suffix p).subset h

theorem mem_of_mem_takeWhile {p : Char → Bool} {l : List Char} {a : Char}
    (h : a ∈ l.takeWhile p) : a ∈ l :=
  (List.takeWhile_prefix p).subset h

theorem dropWhile_idem {p : Char → Bool} (l : List Char) :
    (l.dropWhile p).dropWhile p = l.dropWhile p := by
  induction l with
  | nil => rfl
  | cons a t ih =>
    rw [List.dropWhile_cons]
    by_cases h : p a = true
    · rw [if_pos h]; exact ih
    · rw [if_neg h, List.dropWhile_cons, if_neg h]

theorem rstripSlash_idem (l : List Char) : rstripSlash (rstripSlash l) = rstripSlash l := by
  unfold rstripSlash
  rw [List.reverse_reverse, dropWhile_idem]

theorem mem_of_mem_rstripSlash {l : List Char} {a : Char} (h : a ∈ rstripSlash l) :
    a ∈ l := by
  unfold rstripSlash at h
  rw [List.mem_reverse] at h
  have := mem_of_mem_dropWhile h
  rwa [List.mem_reverse] at this

theorem rstripSlash_nil : rstripSlash [] = [] := rfl

theorem rstripSlash_head {a : Char} {l : List Char} :
    rstripSlash (a :: l) = [] ∨ ∃ t, rstripSlash (a :: l) = a :: t := by
  have hpre : rstripSlash (a :: l) <+: (a :: l) := by
    unfold rstripSlash
    rw [show (a :: l) = (a :: l).reverse.reverse by rw [List.reverse_reverse]]
    rw [List.reverse_reverse]
    exact List.reverse_prefix.mpr (List.dropWhile_suffix _)
  cases he : rstripSlash (a :: l) with
  | nil => exact Or.inl rfl
  | cons b t =>
    rw [he] at hpre
    obtain ⟨r, hr⟩ := hpre
    cases hr
    exact Or.inr ⟨t, rfl⟩

theorem startsWithL_append (n t : List Char) : startsWithL n (n ++ t) = true := by
  induction n with
  | nil => rfl
  | cons a as ih => simp [startsWithL, ih]

theorem startsWithL_iff (n h : List Char) :
    startsWithL n h = true ↔ ∃ t, h = n ++ t := by
  constructor
  · intro hs
    induction n generalizing h with
    | nil => exact ⟨h, rfl⟩
    | cons a as ih =>
      cases h with
      | nil => simp [startsWithL] at hs
      | cons b bs =>
        simp only [startsWithL, Bool.and_eq_true, beq_iff_eq] at hs
        obtain ⟨t, ht⟩ := ih bs hs.2
        exact ⟨t, by rw [hs.1, ht]; rfl⟩
  · rintro ⟨t, rfl⟩
    exact startsWithL_append n t

theorem hasSubstr_iff (n h : List Char) :
    hasSubstr n h = true ↔ ∃ pre post, h = pre ++ n ++ post := by
  induction h with
  | nil =>
    simp only [hasSubstr, List.isEmpty_iff]
    constructor
    · rintro rfl; exact ⟨[], [], rfl⟩
    · rintro ⟨pre, post, hp⟩
      cases pre <;> cases n <;> simp_all
  | cons a t ih =>
    simp only [hasSubstr, Bool.or_eq_true]
    constructor
    · rintro (hs | hs)
      · obtain ⟨r, hr⟩ := (startsWithL_iff _ _).mp hs
        exact ⟨[], r, by simp [hr]⟩
      · obtain ⟨pre, post, hp⟩ := ih.mp hs
        exact ⟨a :: pre, post, by simp [hp]⟩
    · rintro ⟨pre, post, hp⟩
      cases pre with
      | nil =>
        left
        rw [List.nil_append] at hp
        exact (startsWithL_iff _ _).mpr ⟨post, hp⟩
      | cons b bs =>
        right
        refine ih.mpr ⟨bs, post, ?_⟩
        simpa using congrArg List.tail hp

theorem contains_false_of_not_mem {l : List Char} {c : Char} (h : c ∉ l) :
    l.contains c = false := by
  rw [← Bool.not_eq_true]
  intro hc
  exact h (List.elem_iff.mp hc)

theorem ofChars_toList (l : List Char) : (ofChars l).toList = l := rfl

-- ------------------------------------------------------------------
-- Helper lemmas: urlsplit components of an arbitrary URL
-- ------------------------------------------------------------------

theorem mem_sanitize_no_unsafe {url : List Char} {c : Char} (h : c ∈ sanitizeUrl url) :
    ¬ (c = '\t' ∨ c = '\r' ∨ c = '\n') := by
  have := List.of_mem_filter h
  intro hc
  rcases hc with rfl | rfl | rfl <;> simp at this

theorem schemeOk_all {pre : List Char} (h : schemeOk pre = true) :
    ∀ c ∈ pre, schemeChar c = true := by
  cases pre with
  | nil => intro c hc; simp at hc
  | cons a t =>
    simp only [schemeOk, Bool.and_eq_true, List.all_eq_true] at h
    exact h.2

theorem netlocOf_chars (url : List Char) : ∀ c ∈ netlocOf url, netlocChar c = true := by
  intro c hc
  unfold netlocOf at hc
  split at hc
  · exact List.mem_takeWhile_imp hc
  · simp at hc

theorem netlocOf_subset_sanitize (url : List Char) :
    ∀ c ∈ netlocOf url, c ∈ sanitizeUrl url := by
  intro c hc
  unfold netlocOf at hc
  split at hc
  · have h1 : c ∈ (restAfterScheme url).drop 2 := mem_of_mem_takeWhile hc
    have h2 : c ∈ restAfterScheme url := List.drop_subset 2 _ h1
    unfold restAfterScheme at h2
    split at h2
    · exact List.drop_subset _ _ h2
    · exact h2
  · simp at hc

theorem rest2Of_subset_sanitize (url : List Char) :
    ∀ c ∈ rest2Of url, c ∈ sanitizeUrl url := by
  intro c hc
  unfold rest2Of at hc
  have hsub : ∀ x ∈ restAfterScheme url, x ∈ sanitizeUrl url := by
    intro x hx
    unfold restAfterScheme at hx
    split at hx
    · exact List.drop_subset _ _ hx
    · exact hx
  split at hc
  · exact hsub c (List.drop_subset 2 _ (mem_of_mem_dropWhile hc))
  · exact hsub c hc

theorem pathOf_subset_rest2 (url : List Char) : ∀ c ∈ pathOf url, c ∈ rest2Of url := by
  intro c hc
  exact mem_of_mem_takeWhile (mem_of_mem_takeWhile hc)

theorem pathOf_chars (url : List Char) : ∀ c ∈ pathOf url, c ≠ '#' ∧ c ≠ '?' := by
  intro c hc
  unfold pathOf beforeFragOf at hc
  have h1 : (c != '?') = true :=
    List.mem_takeWhile_imp (p := fun c => c != '?') hc
  have h2 : (c != '#') = true :=
    List.mem_takeWhile_imp (p := fun c => c != '#') (mem_of_mem_takeWhile hc)
  exact ⟨by simpa using h2, by simpa using h1⟩

theorem pathOf_start (url : List Char) (h : hasNetlocB url = true) :
    pathOf url = [] ∨ ∃ t, pathOf url = '/' :: t := by
  unfold pathOf beforeFragOf
  cases hr : rest2Of url with
  | nil => simp
  | cons c t =>
    have hcf : netlocChar c = false := by
      unfold rest2Of at hr
      rw [if_pos h] at hr
      exact dropWhile_head_false hr
    have hc3 : c = '/' ∨ c = '?' ∨ c = '#' := by
      have hb : (c == '/' || c == '?' || c == '#') = true := by
        unfold netlocChar at hcf
        cases hb2 : (c == '/' || c == '?' || c == '#') with
        | true => rfl
        | false => rw [hb2] at hcf; simp at hcf
      have := by simpa using hb
      tauto
    rcases hc3 with rfl | rfl | rfl
    · rw [List.takeWhile_cons]
      simp only [show (('/' : Char) != '#') = true from rfl, if_true]
      rw [List.takeWhile_cons]
      simp only [show (('/' : Char) != '?') = true from rfl, if_true]
      exact Or.inr ⟨_, rfl⟩
    · rw [List.takeWhile_cons]
      simp only [show (('?' : Char) != '#') = true from rfl, if_true]
      rw [List.takeWhile_cons]
      simp
    · rw [List.takeWhile_cons]
      simp

/-- `_splitparams` is the identity on a path without a semicolon. -/
theorem splitParams_no_semi {p : List Char} (h : ';' ∉ p) : splitParams p = (p, []) := by
  unfold splitParams
  by_cases hc : p.contains '/' = true
  · rw [if_pos hc]
    have hseg : ';' ∉ (p.reverse.takeWhile (fun c => c != '/')).reverse := by
      intro hm
      rw [List.mem_reverse] at hm
      have := mem_of_mem_takeWhile hm
      rw [List.mem_reverse] at this
      exact h this
    rw [if_neg (by rw [contains_false_of_not_mem hseg]; simp)]
  · rw [if_neg (by simpa using hc)]
    rw [if_neg (by rw [contains_false_of_not_mem h]; simp)]

-- ------------------------------------------------------------------
-- Round trip: parsing a reconstructed scheme://netloc/path URL
-- ------------------------------------------------------------------

section RoundTrip

variable {s n p : List Char}

theorem recon_sanitize (hs : schemeOk s = true)
    (hn : ∀ c ∈ n, ¬ (c = '\t' ∨ c = '\r' ∨ c = '\n'))
    (hp : ∀ c ∈ p, ¬ (c = '\t' ∨ c = '\r' ∨ c = '\n')) :
    sanitizeUrl (reconUrl s n p) = reconUrl s n p := by
  rcases schemeOk_head_gt32 s hs with h0 | ⟨c, t, hct, hgt⟩
  · rw [h0] at hs; exact absurd hs (by decide)
  subst hct
  unfold sanitizeUrl reconUrl
  rw [List.cons_append, List.dropWhile_cons, if_neg (by simp; omega)]
  rw [List.filter_eq_self.mpr]
  intro a ha
  have hsall := schemeOk_all hs
  simp only [List.cons_append, List.mem_cons, List.mem_append] at ha
  rcases ha with rfl | ha
  · have := schemeChar_ne_special a (hsall a (by simp))
    simp only [Bool.not_eq_true', Bool.or_eq_false_iff, beq_eq_false_iff_ne]
    exact ⟨⟨this.2.2.2.2.2.1, this.2.2.2.2.2.2.1⟩, this.2.2.2.2.2.2.2⟩
  · rcases ha with ha | rfl | rfl | rfl | ha
    · have := schemeChar_ne_special a (hsall a (by simp [ha]))
      simp only [Bool.not_eq_true', Bool.or_eq_false_iff, beq_eq_false_iff_ne]
      exact ⟨⟨this.2.2.2.2.2.1, this.2.2.2.2.2.2.1⟩, this.2.2.2.2.2.2.2⟩
    · decide
    · decide
    · decide
    · rcases ha with ha | ha
      · have := hn a ha
        simp only [Bool.not_eq_true', Bool.or_eq_false_iff, beq_eq_false_iff_ne]
        push_neg at this
        exact ⟨⟨this.1, this.2.1⟩, this.2.2⟩
      · have := hp a ha
        simp only [Bool.not_eq_true', Bool.or_eq_false_iff, beq_eq_false_iff_ne]
        push_neg at this
        exact ⟨⟨this.1, this.2.1⟩, this.2.2⟩

theorem recon_schemePre (hs : schemeOk s = true)
    (hn : ∀ c ∈ n, ¬ (c = '\t' ∨ c = '\r' ∨ c = '\n'))
    (hp : ∀ c ∈ p, ¬ (c = '\t' ∨ c = '\r' ∨ c = '\n')) :
    schemePre (reconUrl s n p) = s := by
  unfold schemePre
  rw [recon_sanitize hs hn hp]
  unfold reconUrl
  rw [takeWhile_append_all s _ (fun a ha => by
    have := (schemeChar_ne_special a (schemeOk_all hs a ha)).1
    simpa using this)]
  rw [List.takeWhile_cons]
  simp

theorem recon_hasScheme (hs : schemeOk s = true)
    (hn : ∀ c ∈ n, ¬ (c = '\t' ∨ c = '\r' ∨ c = '\n'))
    (hp : ∀ c ∈ p, ¬ (c = '\t' ∨ c = '\r' ∨ c = '\n')) :
    hasSchemeB (reconUrl s n p) = true := by
  unfold hasSchemeB
  rw [recon_schemePre hs hn hp, recon_sanitize hs hn hp]
  simp only [Bool.and_eq_true, decide_eq_true_eq]
  refine ⟨?_, hs⟩
  unfold reconUrl
  simp [List.length_append]

theorem recon_rest (hs : schemeOk s = true)
    (hn : ∀ c ∈ n, ¬ (c = '\t' ∨ c = '\r' ∨ c = '\n'))
    (hp : ∀ c ∈ p, ¬ (c = '\t' ∨ c = '\r' ∨ c = '\n')) :
    restAfterScheme (reconUrl s n p) = '/' :: '/' :: (n ++ p) := by
  unfold restAfterScheme
  rw [recon_hasScheme hs hn hp, if_pos rfl, recon_sanitize hs hn hp,
    recon_schemePre hs hn hp]
  have : reconUrl s n p = (s ++ [':']) ++ ('/' :: '/' :: (n ++ p)) := by
    unfold reconUrl; simp
  rw [this, show s.length + 1 = (s ++ [':']).length by simp, List.drop_left]

theorem recon_hasNetloc (hs : schemeOk s = true)
    (hn : ∀ c ∈ n, ¬ (c = '\t' ∨ c = '\r' ∨ c = '\n'))
    (hp : ∀ c ∈ p, ¬ (c = '\t' ∨ c = '\r' ∨ c = '\n')) :
    hasNetlocB (reconUrl s n p) = true := by
  unfold hasNetlocB
  rw [recon_rest hs hn hp]
  rfl

theorem recon_netloc (hs : schemeOk s = true)
    (hnc : ∀ c ∈ n, netlocChar c = true)
    (hn : ∀ c ∈ n, ¬ (c = '\t' ∨ c = '\r' ∨ c = '\n'))
    (hp : ∀ c ∈ p, ¬ (c = '\t' ∨ c = '\r' ∨ c = '\n'))
    (hpstart : p = [] ∨ ∃ t, p = '/' :: t) :
    netlocOf (reconUrl s n p) = n := by
  unfold netlocOf
  rw [recon_hasNetloc hs hn hp, if_pos rfl, recon_rest hs hn hp]
  show (n ++ p).takeWhile netlocChar = n
  rw [takeWhile_append_all n p hnc]
  rcases hpstart with rfl | ⟨t, rfl⟩
  · simp
  · rw [List.takeWhile_cons, if_neg (by decide)]
    simp

theorem recon_rest2 (hs : schemeOk s = true)
    (hnc : ∀ c ∈ n, netlocChar c = true)
    (hn : ∀ c ∈ n, ¬ (c = '\t' ∨ c = '\r' ∨ c = '\n'))
    (hp : ∀ c ∈ p, ¬ (c = '\t' ∨ c = '\r' ∨ c = '\n'))
    (hpstart : p = [] ∨ ∃ t, p = '/' :: t) :
    rest2Of (reconUrl s n p) = p := by
  unfold rest2Of
  rw [recon_hasNetloc hs hn hp, if_pos rfl, recon_rest hs hn hp]
  show (n ++ p).dropWhile netlocChar = p
  rw [dropWhile_append_all n p hnc]
  rcases hpstart with rfl | ⟨t, rfl⟩
  · simp
  · rw [List.dropWhile_cons, if_neg (by decide)]

theorem recon_split (hs : schemeOk s = true) (hlow : lowerL s = s)
    (hnc : ∀ c ∈ n, netlocChar c = true)
    (hn : ∀ c ∈ n, ¬ (c = '\t' ∨ c = '\r' ∨ c = '\n'))
    (hp : ∀ c ∈ p, ¬ (c = '\t' ∨ c = '\r' ∨ c = '\n'))
    (hpq : ∀ c ∈ p, c ≠ '#' ∧ c ≠ '?')
    (hpstart : p = [] ∨ ∃ t, p = '/' :: t) :
    urlsplitL (reconUrl s n p) [] = ⟨s, n, p, [], []⟩ := by
  have hr2 : rest2Of (reconUrl s n p) = p := recon_rest2 hs hnc hn hp hpstart
  have hbf : beforeFragOf (reconUrl s n p) = p := by
    unfold beforeFragOf
    rw [hr2]
    exact takeWhile_all p (fun c hc => by simpa using (hpq c hc).1)
  unfold urlsplitL
  rw [recon_hasScheme hs hn hp, if_pos rfl, recon_schemePre hs hn hp, hlow]
  congr 1
  · exact recon_netloc hs hnc hn hp hpstart
  · unfold pathOf
    rw [hbf]
    exact takeWhile_all p (fun c hc => by simpa using (hpq c hc).2)
  · unfold queryOf
    rw [hbf, dropWhile_all p (fun c hc => by simpa using (hpq c hc).2)]
    rfl
  · unfold fragOf
    rw [hr2, dropWhile_all p (fun c hc => by simpa using (hpq c hc).1)]
    rfl

theorem normalize_recon_fix (hs : schemeOk s = true) (hlow : lowerL s = s)
    (hnc : ∀ c ∈ n, netlocChar c = true)
    (hn : ∀ c ∈ n, ¬ (c = '\t' ∨ c = '\r' ∨ c = '\n'))
    (hp : ∀ c ∈ p, ¬ (c = '\t' ∨ c = '\r' ∨ c = '\n'))
    (hpq : ∀ c ∈ p, c ≠ '#' ∧ c ≠ '?')
    (hpstart : p = [] ∨ ∃ t, p = '/' :: t)
    (hsemi : ';' ∉ p)
    (hslash : rstripSlash p = p)
    (hbr : n.contains '[' = n.contains ']') :
    normalize_url (ofChars (reconUrl s n p)) = ofChars (reconUrl s n p) := by
  have hsplit := recon_split hs hlow hnc hn hp hpq hpstart
  have hnl : netlocOf (reconUrl s n p) = n := recon_netloc hs hnc hn hp hpstart
  have hfails : urlsplitFails (reconUrl s n p) = false := by
    unfold urlsplitFails
    rw [hnl, hbr]
    simp
  unfold normalize_url
  rw [ofChars_toList, hfails, if_neg (by simp)]
  have hparse : urlparseL (reconUrl s n p) [] = ⟨s, n, p, [], [], []⟩ := by
    unfold urlparseL
    rw [hsplit]
    show (⟨s, n, (splitParams p).1, (splitParams p).2, [], []⟩ : ParsedUrl) = _
    rw [splitParams_no_semi hsemi]
  rw [hparse]
  show ofChars (s ++ (String.toList "://") ++ n ++ rstripSlash p) = _
  rw [hslash]
  unfold reconUrl
  congr 1
  show s ++ [':', '/', '/'] ++ n ++ p = s ++ ':' :: '/' :: '/' :: (n ++ p)
  simp

end RoundTrip

-- ------------------------------------------------------------------
-- Helper lemmas: the orchestrator invariant (C2)
-- ------------------------------------------------------------------

theorem not_mem_filter_of_not_mem {l : List String} {u : String} {p : String → Bool}
    (h : u ∉ l) : u ∉ l.filter p :=
  fun hm => h (List.mem_filter.mp hm).1

theorem enqueue_fold_disj (d : Nat) (b : String) (visited1 : List String)
    (links : List String) :
    ∀ acc : List (String × Nat × String) × List String,
      (∀ u ∈ visited1, u ∉ acc.2) →
      ∀ u ∈ visited1, u ∉ (links.foldl (enqueueStep d b visited1) acc).2 := by
  induction links with
  | nil => intro acc h; exact h
  | cons l t ih =>
    intro acc h
    simp only [List.foldl_cons]
    apply ih
    intro u hu
    simp only [enqueueStep]
    split
    case isTrue hcond =>
      simp only [List.mem_append, List.mem_singleton]
      rintro (hmem | rfl)
      · exact h u hu hmem
      · exact hcond.2.1 hu
    case isFalse => exact h u hu

-- ------------------------------------------------------------------
-- Helper lemmas: the processed-file registry (C3, C5)
-- ------------------------------------------------------------------

theorem countFor_append (f : String) (l1 l2 : List FileRecord) :
    countFor f (l1 ++ l2) = countFor f l1 + countFor f l2 := by
  unfold countFor
  rw [List.filter_append, List.length_append]

theorem countFor_nil (f : String) : countFor f [] = 0 := rfl

theorem countFor_single_ne {f : String} {r : FileRecord} (h : r.file_url ≠ f) :
    countFor f [r] = 0 := by
  unfold countFor
  rw [List.filter_cons, if_neg (by simpa using h)]
  rfl

theorem countFor_single_eq {f : String} {r : FileRecord} (h : r.file_url = f) :
    countFor f [r] = 1 := by
  unfold countFor
  rw [List.filter_cons, if_pos (by simpa using h)]
  rfl

theorem fileRecord_with_url (doc : FileRecord) (fu : String) :
    ({ doc with file_url := fu } : FileRecord).file_url = fu := rfl

theorem process_document_some (env : FetchEnv) (fp fu : String) :
    ∃ r, (process_document_content env fp fu).1 = some r := by
  simp only [process_document_content]
  by_cases he : ofChars (lowerL (splitextExt fp.toList)) = ".pdf"
  · rw [if_pos he]
    cases hp : (process_pdf_with_plumber env fp).1 with
    | some d => exact ⟨_, rfl⟩
    | none => exact ⟨_, rfl⟩
  · rw [if_neg he]
    exact ⟨_, rfl⟩

theorem fetchFileStep_cases (env : FetchEnv) (acc : List FileRecord × List String)
    (fu : String) :
    (fu ∈ acc.2 ∧ fetchFileStep env acc fu = acc) ∨
    (fu ∉ acc.2 ∧ env.downloadOk fu = false ∧ fetchFileStep env acc fu = acc) ∨
    (fu ∉ acc.2 ∧ env.downloadOk fu = true ∧ ∃ doc : FileRecord,
      fetchFileStep env acc fu =
        (acc.1 ++ [{ doc with file_url := fu }], acc.2 ++ [fu])) := by
  by_cases h1 : fu ∈ acc.2
  · exact Or.inl ⟨h1, by unfold fetchFileStep; rw [if_pos h1]⟩
  · by_cases h2 : env.downloadOk fu = true
    · have hdl2 : download_file env fu = some ("my_downloads/" ++ safeFilename fu) := by
        unfold download_file; rw [if_pos h2]
      obtain ⟨doc, hdoc⟩ :=
        process_document_some env ("my_downloads/" ++ safeFilename fu) fu
      refine Or.inr (Or.inr ⟨h1, h2, doc, ?_⟩)
      unfold fetchFileStep
      rw [if_neg h1]
      simp only [hdl2, hdoc]
    · have hdl2 : download_file env fu = none := by
        unfold download_file; rw [if_neg h2]
      refine Or.inr (Or.inl ⟨h1, Bool.eq_false_iff.mpr h2, ?_⟩)
      unfold fetchFileStep
      rw [if_neg h1]
      simp only [hdl2]

theorem loop_inv (env : FetchEnv) (f : String) :
    ∀ (fls : List String) (acc : List FileRecord × List String),
      (f ∈ acc.2 → countFor f acc.1 ≤ 1) → (f ∉ acc.2 → countFor f acc.1 = 0) →
      ((f ∈ (fls.foldl (fetchFileStep env) acc).2 →
          countFor f (fls.foldl (fetchFileStep env) acc).1 ≤ 1) ∧
       (f ∉ (fls.foldl (fetchFileStep env) acc).2 →
          countFor f (fls.foldl (fetchFileStep env) acc).1 = 0)) := by
  intro fls
  induction fls with
  | nil => intro acc h1 h2; exact ⟨h1, h2⟩
  | cons fu t ih =>
    intro acc h1 h2
    simp only [List.foldl_cons]
    rcases fetchFileStep_cases env acc fu with ⟨hm, he⟩ | ⟨hm, hd, he⟩ | ⟨hm, hd, doc, he⟩
    · rw [he]; exact ih acc h1 h2
    · rw [he]; exact ih acc h1 h2
    · rw [he]
      apply ih
      · intro hmem
        rw [countFor_append]
        by_cases hf : f = fu
        · subst hf
          rw [h2 hm, countFor_single_eq (r := { doc with file_url := f }) rfl]
        · have hfm : f ∈ acc.2 := by
            rcases List.mem_append.mp hmem with h | h
            · exact h
            · simp at h; exact absurd h hf
          rw [countFor_single_ne (fun e => hf e.symm)]
          have := h1 hfm
          omega
      · intro hmem
        rw [countFor_append]
        have hf : f ≠ fu := by
          intro e; exact hmem (by rw [e]; exact List.mem_append.mpr (Or.inr (by simp)))
        have hfm : f ∉ acc.2 := fun hin =>
          hmem (List.mem_append.mpr (Or.inl hin))
        rw [h2 hfm, countFor_single_ne (fun e => hf e.symm)]

theorem loop_mem (env : FetchEnv) (f : String) :
    ∀ (fls : List String) (acc : List FileRecord × List String), f ∈ acc.2 →
      countFor f (fls.foldl (fetchFileStep env) acc).1 = countFor f acc.1 ∧
      f ∈ (fls.foldl (fetchFileStep env) acc).2 := by
  intro fls
  induction fls with
  | nil => intro acc h; exact ⟨rfl, h⟩
  | cons fu t ih =>
    intro acc h
    simp only [List.foldl_cons]
    rcases fetchFileStep_cases env acc fu with ⟨hm, he⟩ | ⟨hm, hd, he⟩ | ⟨hm, hd, doc, he⟩
    · rw [he]; exact ih acc h
    · rw [he]; exact ih acc h
    · rw [he]
      have hf : f ≠ fu := fun e => hm (e ▸ h)
      have := ih (acc.1 ++ [{ doc with file_url := fu }], acc.2 ++ [fu])
        (List.mem_append.mpr (Or.inl h))
      refine ⟨?_, this.2⟩
      rw [this.1]
      show countFor f (acc.1 ++ [{ doc with file_url := fu }]) = countFor f acc.1
      rw [countFor_append, countFor_single_ne (fun e => hf e.symm)]
      omega

theorem loop_hit (env : FetchEnv) (f : String) (hdl : env.downloadOk f = true) :
    ∀ (fls : List String) (acc : List FileRecord × List String),
      f ∉ acc.2 → countFor f acc.1 = 0 → f ∈ fls →
      countFor f (fls.foldl (fetchFileStep env) acc).1 = 1 ∧
      f ∈ (fls.foldl (fetchFileStep env) acc).2 := by
  intro fls
  induction fls with
  | nil => intro acc _ _ hin; simp at hin
  | cons fu t ih =>
    intro acc hnm hc0 hin
    simp only [List.foldl_cons]
    by_cases hf : fu = f
    · subst hf
      rcases fetchFileStep_cases env acc fu with ⟨hm, _⟩ | ⟨_, hd, _⟩ | ⟨hm, hd, doc, he⟩
      · exact absurd hm hnm
      · rw [hdl] at hd; cases hd
      · rw [he]
        have hmem : fu ∈ acc.2 ++ [fu] := List.mem_append.mpr (Or.inr (by simp))
        have := loop_mem env fu t
          (acc.1 ++ [{ doc with file_url := fu }], acc.2 ++ [fu]) hmem
        refine ⟨?_, this.2⟩
        rw [this.1]
        show countFor fu (acc.1 ++ [{ doc with file_url := fu }]) = 1
        rw [countFor_append, hc0, countFor_single_eq (r := { doc with file_url := fu }) rfl]
    · have hin' : f ∈ t := by
        rcases List.mem_cons.mp hin with h | h
        · exact absurd h.symm hf
        · exact h
      rcases fetchFileStep_cases env acc fu with ⟨hm, he⟩ | ⟨hm, hd, he⟩ | ⟨hm, hd, doc, he⟩
      · rw [he]; exact ih acc hnm hc0 hin'
      · rw [he]; exact ih acc hnm hc0 hin'
      · rw [he]
        apply ih
        · intro hmem
          rcases List.mem_append.mp hmem with h | h
          · exact hnm h
          · simp at h; exact hf h.symm
        · show countFor f (acc.1 ++ [{ doc with file_url := fu }]) = 0
          rw [countFor_append, hc0, countFor_single_ne (f := f) (fun e => hf e)]
        · exact hin'

theorem loop_miss (env : FetchEnv) (f : String) :
    ∀ (fls : List String) (acc : List FileRecord × List String),
      f ∉ acc.2 → f ∉ fls →
      countFor f (fls.foldl (fetchFileStep env) acc).1 = countFor f acc.1 ∧
      f ∉ (fls.foldl (fetchFileStep env) acc).2 := by
  intro fls
  induction fls with
  | nil => intro acc h _; exact ⟨rfl, h⟩
  | cons fu t ih =>
    intro acc hnm hnf
    have hf : f ≠ fu := fun e => hnf (e ▸ List.mem_cons_self fu t)
    have hnf' : f ∉ t := fun h => hnf (List.mem_cons_of_mem fu h)
    simp only [List.foldl_cons]
    rcases fetchFileStep_cases env acc fu with ⟨hm, he⟩ | ⟨hm, hd, he⟩ | ⟨hm, hd, doc, he⟩
    · rw [he]; exact ih acc hnm hnf'
    · rw [he]; exact ih acc hnm hnf'
    · rw [he]
      have hnm' : f ∉ acc.2 ++ [fu] := by
        intro hmem
        rcases List.mem_append.mp hmem with h | h
        · exact hnm h
        · simp at h; exact hf h
      have := ih (acc.1 ++ [{ doc with file_url := fu }], acc.2 ++ [fu]) hnm' hnf'
      refine ⟨?_, this.2⟩
      rw [this.1]
      show countFor f (acc.1 ++ [{ doc with file_url := fu }]) = countFor f acc.1
      rw [countFor_append, countFor_single_ne (fun e => hf e.symm)]
      omega

theorem pages_mem_zero (env : FetchEnv) (f : String) :
    ∀ (pages : List (List String)) (reg : List String), f ∈ reg →
      countFor f (pagesRun env reg pages) = 0 := by
  intro pages
  induction pages with
  | nil => intro reg _; rfl
  | cons p rest ih =>
    intro reg hmem
    show countFor f ((fetchFilesLoop env reg p).1 ++ _) = 0
    rw [countFor_append]
    have h1 := loop_mem env f p ([], reg) hmem
    rw [show countFor f (fetchFilesLoop env reg p).1 = 0 from h1.1,
      ih (fetchFilesLoop env reg p).2 h1.2]

theorem pages_exact (env : FetchEnv) (f : String) (hdl : env.downloadOk f = true) :
    ∀ (pages : List (List String)) (reg : List String), f ∉ reg →
      (∃ p ∈ pages, f ∈ p) →
      countFor f (pagesRun env reg pages) = 1 := by
  intro pages
  induction pages with
  | nil => intro reg _ hex; simp at hex
  | cons p rest ih =>
    intro reg hnm hex
    show countFor f ((fetchFilesLoop env reg p).1 ++ _) = 1
    rw [countFor_append]
    by_cases hmem : f ∈ p
    · have h1 := loop_hit env f hdl p ([], reg) hnm rfl hmem
      rw [show countFor f (fetchFilesLoop env reg p).1 = 1 from h1.1,
        pages_mem_zero env f rest (fetchFilesLoop env reg p).2 h1.2]
    · have h1 := loop_miss env f p ([], reg) hnm hmem
      rw [show countFor f (fetchFilesLoop env reg p).1 = 0 from h1.1]
      have hex' : ∃ q ∈ rest, f ∈ q := by
        obtain ⟨q, hq, hfq⟩ := hex
        rcases List.mem_cons.mp hq with rfl | hq'
        · exact absurd hfq hmem
        · exact ⟨q, hq', hfq⟩
      rw [ih (fetchFilesLoop env reg p).2 h1.2 hex']

theorem fetch_count_triv (reg : List String) (f : String) (r : FetchResult)
    (hr : r.scraped_files = []) :
    (f ∈ reg → countFor f r.scraped_files = 0 ∧ f ∈ reg) ∧
    countFor f r.scraped_files ≤ 1 ∧
    (countFor f r.scraped_files = 1 → f ∈ reg) := by
  rw [hr]
  exact ⟨fun hm => ⟨rfl, hm⟩, by simp [countFor],
    fun hc => absurd hc (by simp [countFor])⟩

theorem fetch_count_loop (env : FetchEnv) (reg : List String) (f : String)
    (fls : List String) :
    (f ∈ reg → countFor f (fetchFilesLoop env reg fls).1 = 0 ∧
      f ∈ (fetchFilesLoop env reg fls).2) ∧
    countFor f (fetchFilesLoop env reg fls).1 ≤ 1 ∧
    (countFor f (fetchFilesLoop env reg fls).1 = 1 →
      f ∈ (fetchFilesLoop env reg fls).2) := by
  unfold fetchFilesLoop
  have hinv := loop_inv env f fls ([], reg) (fun _ => by simp [countFor]) (fun _ => rfl)
  refine ⟨?_, ?_, ?_⟩
  · intro hm
    have := loop_mem env f fls ([], reg) hm
    exact ⟨this.1, this.2⟩
  · by_cases hm : f ∈ (fetchFilesLoop env reg fls).2
    · exact hinv.1 hm
    · have := hinv.2 hm
      omega
  · intro hc
    by_cases hm : f ∈ (fetchFilesLoop env reg fls).2
    · exact hm
    · have := hinv.2 hm
      omega

theorem fetch_count (env : FetchEnv) (reg : List String) (url f : String)
    (r : FetchResult) (reg1 : List String)
    (hok : fetch_content_and_links env reg url = PyResult.ok (r, reg1)) :
    (f ∈ reg → countFor f r.scraped_files = 0 ∧ f ∈ reg1) ∧
    countFor f r.scraped_files ≤ 1 ∧
    (countFor f r.scraped_files = 1 → f ∈ reg1) := by
  simp only [fetch_content_and_links] at hok
  by_cases hapi : isApiLike url = true
  · rw [if_pos hapi] at hok
    cases hst : env.staticResp url with
    | none =>
      simp only [hst] at hok
      injection hok with h2
      injection h2 with ha hb
      subst ha; subst hb
      exact fetch_count_triv reg f _ rfl
    | some resp =>
      simp only [hst] at hok
      by_cases hct : (hasSubstr ("application/json".toList) (lowerL resp.contentType.toList) ||
          hasSubstr ("xml".toList) (lowerL resp.contentType.toList)) = true
      · rw [if_pos hct] at hok
        injection hok with h2
        injection h2 with ha hb
        subst ha; subst hb
        exact fetch_count_triv reg f _ rfl
      · rw [if_neg hct] at hok
        injection hok with h2
        injection h2 with ha hb
        subst ha; subst hb
        exact fetch_count_loop env reg f _
  · rw [if_neg hapi] at hok
    by_cases hl : env.launchOk = false
    · rw [if_pos hl] at hok
      exact PyResult.noConfusion hok
    · rw [if_neg hl] at hok
      by_cases hnp : env.newPageOk = false
      · rw [if_pos hnp] at hok
        exact PyResult.noConfusion hok
      · rw [if_neg hnp] at hok
        by_cases hg : env.gotoOk url = false
        · rw [if_pos hg] at hok
          injection hok with h2
          injection h2 with ha hb
          subst ha; subst hb
          exact fetch_count_triv reg f _ rfl
        · rw [if_neg hg] at hok
          by_cases hrev : env.revealedLinks url = []
          · rw [if_pos hrev] at hok
            injection hok with h2
            injection h2 with ha hb
            subst ha; subst hb
            exact fetch_count_triv reg f _ rfl
          · rw [if_neg hrev] at hok
            injection hok with h2
            injection h2 with ha hb
            subst ha; subst hb
            exact fetch_count_loop env reg f _

theorem crawlRun_cons (env : FetchEnv) (reg : List String) (u : String)
    (t : List String) :
    crawlRun env reg (u :: t) =
      match fetch_content_and_links env reg u with
      | PyResult.ok (r, reg1) => r.scraped_files ++ crawlRun env reg1 t
      | PyResult.exn _ => [] := rfl

theorem crawlRun_count (env : FetchEnv) (f : String) :
    ∀ (urls : List String) (reg : List String),
      (f ∈ reg → countFor f (crawlRun env reg urls) = 0) ∧
      countFor f (crawlRun env reg urls) ≤ 1 := by
  intro urls
  induction urls with
  | nil => intro reg; exact ⟨fun _ => rfl, by simp [countFor, crawlRun]⟩
  | cons u t ih =>
    intro reg
    cases hf : fetch_content_and_links env reg u with
    | exn e =>
      have hrun : crawlRun env reg (u :: t) = [] := by
        rw [crawlRun_cons]
        simp only [hf]
      rw [hrun]
      exact ⟨fun _ => rfl, by simp [countFor]⟩
    | ok pr =>
      obtain ⟨r, reg1⟩ := pr
      have hfc := fetch_count env reg u f r reg1 hf
      have hrun : crawlRun env reg (u :: t) = r.scraped_files ++ crawlRun env reg1 t := by
        rw [crawlRun_cons]
        simp only [hf]
      rw [hrun]
      constructor
      · intro hmem
        obtain ⟨hc0, hm1⟩ := hfc.1 hmem
        rw [countFor_append, hc0, (ih reg1).1 hm1]
      · rw [countFor_append]
        rcases Nat.lt_or_ge (countFor f r.scraped_files) 1 with hlt | hge
        · have h0 : countFor f r.scraped_files = 0 := by omega
          have := (ih reg1).2
          omega
        · have h1 : countFor f r.scraped_files = 1 := le_antisymm hfc.2.1 hge
          have := (ih reg1).1 (hfc.2.2 h1)
          omega

-- ------------------------------------------------------------------
-- Helper lemmas: contextual extraction (C9)
-- ------------------------------------------------------------------

theorem extract_none_of_bad (text : String) (cfg : VarConfig)
    (h : cfg.value_pattern = none ∨
      ∃ pa, cfg.value_pattern = some pa ∧ compileModel pa = none) :
    contextual_extract text cfg = none := by
  unfold contextual_extract
  by_cases ht : text = ""
  · rw [if_pos ht]
  · rw [if_neg ht]
    rcases h with h | ⟨pa, hpa, hc⟩
    · simp only [h]
    · simp only [hpa]
      by_cases hpe : pa = ""
      · rw [if_pos hpe]
      · rw [if_neg hpe]
        simp only [hc]

-- ------------------------------------------------------------------
-- Helper lemmas: link consolidation in the dynamic path (C7)
-- ------------------------------------------------------------------

theorem consolidate_mem (finalLinks : List String) :
    ∀ (acc : List String), (∀ l ∈ acc, is_downloadable_file_link l = false) →
      ∀ l ∈ consolidateLinks acc finalLinks, is_downloadable_file_link l = false := by
  unfold consolidateLinks
  induction finalLinks with
  | nil => intro acc h; exact h
  | cons x t ih =>
    intro acc h
    simp only [List.foldl_cons]
    apply ih
    intro l hl
    split at hl
    case isTrue hcond =>
      rcases List.mem_append.mp hl with hm | hm
      · exact h l hm
      · simp at hm
        rw [hm]
        exact hcond.1
    case isFalse => exact h l hl

-- ------------------------------------------------------------------
-- Helper lemmas: extract_links output characterisation (C7)
-- ------------------------------------------------------------------

theorem extractLinkStep_mem (base : String) (bd : List Char) (acc : List String)
    (href u : String) (hu : u ∈ extractLinkStep base bd acc href) :
    u ∈ acc ∨ keptLinkSpec base href u := by
  simp only [extractLinkStep] at hu
  split at hu
  case isTrue => exact Or.inl hu
  case isFalse h1 =>
  split at hu
  case isTrue => exact Or.inl hu
  case isFalse h2 =>
  split at hu
  case isTrue => exact Or.inl hu
  case isFalse hsch =>
  split at hu
  case isTrue => exact Or.inl hu
  case isFalse hdom =>
  split at hu
  case isTrue => exact Or.inl hu
  case isFalse hmj =>
  split at hu
  case isTrue => exact Or.inl hu
  case isFalse hsoc =>
  split at hu
  case isTrue => exact Or.inl hu
  case isFalse hmem =>
  rcases List.mem_append.mp hu with h | h
  · exact Or.inl h
  · simp only [List.mem_singleton] at h
    subst h
    push_neg at hmj
    exact Or.inr ⟨not_not.mp hsch, rfl, Bool.eq_false_iff.mpr hsoc,
      Bool.eq_false_iff.mpr hmj.1, Bool.eq_false_iff.mpr hmj.2⟩

theorem extract_fold_mem (base : String) (bd : List Char) :
    ∀ (t : List String) (acc : List String) (u : String),
      u ∈ t.foldl (extractLinkStep base bd) acc →
      u ∈ acc ∨ ∃ href ∈ t, keptLinkSpec base href u := by
  intro t
  induction t with
  | nil => intro acc u hu; exact Or.inl hu
  | cons href tl ih =>
    intro acc u hu
    simp only [List.foldl_cons] at hu
    rcases ih _ u hu with h | ⟨h2, hm, hk⟩
    · rcases extractLinkStep_mem base bd acc href u h with h' | hk
      · exact Or.inl h'
      · exact Or.inr ⟨href, List.mem_cons_self _ _, hk⟩
    · exact Or.inr ⟨h2, List.mem_cons_of_mem _ hm, hk⟩

theorem extract_links_mem (hrefs : List String) (base u : String)
    (hu : u ∈ extract_links hrefs base) :
    ∃ href ∈ hrefs, keptLinkSpec base href u := by
  unfold extract_links at hu
  rcases extract_fold_mem base _ hrefs [] u hu with h | h
  · simp at h
  · exact h

theorem splitParams_fst_subset (p : List Char) : ∀ c ∈ (splitParams p).1, c ∈ p := by
  intro c hc
  simp only [splitParams] at hc
  split at hc
  · split at hc
    · rcases List.mem_append.mp hc with h | h
      · rw [List.mem_reverse] at h
        have := mem_of_mem_dropWhile h
        rwa [List.mem_reverse] at this
      · have h2 := mem_of_mem_takeWhile h
        rw [List.mem_reverse] at h2
        have := mem_of_mem_takeWhile h2
        rwa [List.mem_reverse] at this
    · exact hc
  · split at hc
    · exact mem_of_mem_takeWhile hc
    · exact hc

theorem splitParams_snd_subset (p : List Char) : ∀ c ∈ (splitParams p).2, c ∈ p := by
  intro c hc
  simp only [splitParams] at hc
  split at hc
  · split at hc
    · have h1 := List.drop_subset 1 _ hc
      have h2 := mem_of_mem_dropWhile h1
      rw [List.mem_reverse] at h2
      have := mem_of_mem_takeWhile h2
      rwa [List.mem_reverse] at this
    · simp at hc
  · split at hc
    · have h1 := List.drop_subset 1 _ hc
      exact mem_of_mem_dropWhile h1
    · simp at hc

theorem mem_urlunsplit_no_qf (s n p : List Char) (c : Char)
    (hc : c ∈ urlunsplitL s n p [] []) :
    c ∈ s ∨ c = ':' ∨ c = '/' ∨ c ∈ n ∨ c ∈ p := by
  have hu1 : ∀ x : Char,
      x ∈ (if n ≠ [] ∨ startsWithL ['/', '/'] p = true then
        ['/', '/'] ++ n ++ (if p ≠ [] ∧ ¬ startsWithL ['/'] p = true then '/' :: p else p)
      else p) →
      x = '/' ∨ x ∈ n ∨ x ∈ p := by
    intro x hx
    split at hx
    · rcases List.mem_append.mp hx with h1 | h1
      · rcases List.mem_append.mp h1 with h2 | h2
        · left
          rcases List.mem_cons.mp h2 with rfl | h3
          · rfl
          · simpa using h3
        · exact Or.inr (Or.inl h2)
      · split at h1
        · rcases List.mem_cons.mp h1 with rfl | h3
          · exact Or.inl rfl
          · exact Or.inr (Or.inr h3)
        · exact Or.inr (Or.inr h1)
    · exact Or.inr (Or.inr hx)
  simp only [urlunsplitL, ne_eq, not_true_eq_false, if_false] at hc
  split at hc
  · rcases List.mem_append.mp hc with h1 | h1
    · rcases List.mem_append.mp h1 with h2 | h2
      · exact Or.inl h2
      · simp only [List.mem_singleton] at h2
        exact Or.inr (Or.inl h2)
    · rcases hu1 c h1 with h | h | h
      · exact Or.inr (Or.inr (Or.inl h))
      · exact Or.inr (Or.inr (Or.inr (Or.inl h)))
      · exact Or.inr (Or.inr (Or.inr (Or.inr h)))
  · rcases hu1 c hc with h | h | h
    · exact Or.inr (Or.inr (Or.inl h))
    · exact Or.inr (Or.inr (Or.inr (Or.inl h)))
    · exact Or.inr (Or.inr (Or.inr (Or.inr h)))

theorem mem_urlunparse_no_qf (pl : ParsedUrl) (c : Char)
    (hc : c ∈ urlunparseL { pl with query := [], fragment := [] }) :
    c ∈ pl.scheme ∨ c = ':' ∨ c = '/' ∨ c ∈ pl.netloc ∨
    c ∈ pl.path ∨ c = ';' ∨ c ∈ pl.params := by
  simp only [urlunparseL] at hc
  have h5 := mem_urlunsplit_no_qf _ _ _ c hc
  rcases h5 with h | h | h | h | h
  · exact Or.inl h
  · exact Or.inr (Or.inl h)
  · exact Or.inr (Or.inr (Or.inl h))
  · exact Or.inr (Or.inr (Or.inr (Or.inl h)))
  · split at h
    · rcases List.mem_append.mp h with h1 | h1
      · rcases List.mem_append.mp h1 with h2 | h2
        · exact Or.inr (Or.inr (Or.inr (Or.inr (Or.inl h2))))
        · simp only [List.mem_singleton] at h2
          exact Or.inr (Or.inr (Or.inr (Or.inr (Or.inr (Or.inl h2)))))
      · exact Or.inr (Or.inr (Or.inr (Or.inr (Or.inr (Or.inr h1)))))
    · exact Or.inr (Or.inr (Or.inr (Or.inr (Or.inl h))))

theorem kept_no_qf (base href u : String) (hk : keptLinkSpec base href u) :
    '?' ∉ u.toList ∧ '#' ∉ u.toList := by
  obtain ⟨hsch, hu, _⟩ := hk
  subst hu
  constructor <;> intro hc
  · rw [show (cleanLinkOf base href).toList =
        urlunparseL { urlparseL (urljoinL base.toList href.toList) [] with
          query := [], fragment := [] } from rfl] at hc
    have h7 := mem_urlunparse_no_qf (urlparseL (urljoinL base.toList href.toList) []) '?' hc
    rcases h7 with h | h | h | h | h | h | h
    · rcases hsch with hs | hs <;> (rw [hs] at h; exact absurd h (by decide))
    · exact absurd h (by decide)
    · exact absurd h (by decide)
    · have := netlocOf_chars (urljoinL base.toList href.toList) '?' h
      exact absurd this (by decide)
    · have h2 := splitParams_fst_subset (pathOf (urljoinL base.toList href.toList)) '?' h
      exact absurd rfl (pathOf_chars _ '?' h2).2
    · exact absurd h (by decide)
    · have h2 := splitParams_snd_subset (pathOf (urljoinL base.toList href.toList)) '?' h
      exact absurd rfl (pathOf_chars _ '?' h2).2
  · rw [show (cleanLinkOf base href).toList =
        urlunparseL { urlparseL (urljoinL base.toList href.toList) [] with
          query := [], fragment := [] } from rfl] at hc
    have h7 := mem_urlunparse_no_qf (urlparseL (urljoinL base.toList href.toList) []) '#' hc
    rcases h7 with h | h | h | h | h | h | h
    · rcases hsch with hs | hs <;> (rw [hs] at h; exact absurd h (by decide))
    · exact absurd h (by decide)
    · exact absurd h (by decide)
    · have := netlocOf_chars (urljoinL base.toList href.toList) '#' h
      exact absurd this (by decide)
    · have h2 := splitParams_fst_subset (pathOf (urljoinL base.toList href.toList)) '#' h
      exact absurd rfl (pathOf_chars _ '#' h2).1
    · exact absurd h (by decide)
    · have h2 := splitParams_snd_subset (pathOf (urljoinL base.toList href.toList)) '#' h
      exact absurd rfl (pathOf_chars _ '#' h2).1

theorem fetch_links_not_file (env : FetchEnv) (reg : List String) (url : String)
    (r : FetchResult) (reg1 : List String)
    (hok : fetch_content_and_links env reg url = PyResult.ok (r, reg1)) :
    ∀ l ∈ r.links, is_downloadable_file_link l = false := by
  simp only [fetch_content_and_links] at hok
  by_cases hapi : isApiLike url = true
  · rw [if_pos hapi] at hok
    cases hst : env.staticResp url with
    | none =>
      simp only [hst] at hok
      injection hok with h2
      injection h2 with ha _
      subst ha
      intro l hl
      simp at hl
    | some resp =>
      simp only [hst] at hok
      by_cases hct : (hasSubstr ("application/json".toList) (lowerL resp.contentType.toList) ||
          hasSubstr ("xml".toList) (lowerL resp.contentType.toList)) = true
      · rw [if_pos hct] at hok
        injection hok with h2
        injection h2 with ha _
        subst ha
        intro l hl
        simp at hl
      · rw [if_neg hct] at hok
        injection hok with h2
        injection h2 with ha _
        subst ha
        intro l hl
        have := (List.mem_filter.mp hl).2
        simpa using this
  · rw [if_neg hapi] at hok
    by_cases hl : env.launchOk = false
    · rw [if_pos hl] at hok
      exact PyResult.noConfusion hok
    · rw [if_neg hl] at hok
      by_cases hnp : env.newPageOk = false
      · rw [if_pos hnp] at hok
        exact PyResult.noConfusion hok
      · rw [if_neg hnp] at hok
        by_cases hg : env.gotoOk url = false
        · rw [if_pos hg] at hok
          injection hok with h2
          injection h2 with ha _
          subst ha
          intro l hl2
          simp at hl2
        · rw [if_neg hg] at hok
          by_cases hrev : env.revealedLinks url = []
          · rw [if_pos hrev] at hok
            injection hok with h2
            injection h2 with ha _
            subst ha
            intro l hl2
            simp at hl2
          · rw [if_neg hrev] at hok
            injection hok with h2
            injection h2 with ha _
            subst ha
            intro l hl2
            refine consolidate_mem _ _ ?_ l hl2
            intro x hx
            have := (List.mem_filter.mp hx).2
            simpa using this

-- ------------------------------------------------------------------
-- Helper lemmas: the click-dedup fold (C4)
-- ------------------------------------------------------------------

theorem clicks_fold (page : List PageElement) :
    ∀ acc : List (String × String) × List (String × String),
      acc.1 = acc.2 → acc.1.Nodup →
      (page.foldl clickStep acc).1 = (page.foldl clickStep acc).2 ∧
      (page.foldl clickStep acc).1.Nodup := by
  induction page with
  | nil => intro acc h1 h2; exact ⟨h1, h2⟩
  | cons e t ih =>
    intro acc h1 h2
    simp only [List.foldl_cons]
    unfold clickStep
    split
    case isTrue => exact ih acc h1 h2
    case isFalse hc1 =>
      split
      case isTrue => exact ih acc h1 h2
      case isFalse =>
        apply ih
        · rw [h1]
        · rw [List.nodup_append]
          refine ⟨h2, by simp, ?_⟩
          rw [List.disjoint_singleton]
          intro hmem
          exact hc1 (Or.inr (h1 ▸ hmem))

theorem process_document_null (env : FetchEnv) (fp fu : String)
    (h : env.pdfOk fp = false ∨ ofChars (lowerL (splitextExt fp.toList)) ≠ ".pdf") :
    (process_document_content env fp fu).1 =
      some { file_url := "",
             file_name := ofChars (basenameL (urlparseL fu.toList []).path),
             file_type := ofChars (stripDots (lowerL (splitextExt fp.toList))),
             content_text := none, content_tables_json := none } := by
  simp only [process_document_content]
  by_cases he : ofChars (lowerL (splitextExt fp.toList)) = ".pdf"
  · rw [if_pos he]
    have hp : (process_pdf_with_plumber env fp).1 = none := by
      rcases h with h | h
      · show (if env.pdfOk fp = true then some _ else none) = none
        rw [if_neg (by simp [h])]
      · exact absurd he h
    simp only [hp]
    rfl
  · rw [if_neg he]
    rfl

-- ------------------------------------------------------------------
-- Claims
-- ------------------------------------------------------------------

/-- C1 counterexample: the claim says no exception raised anywhere inside
either fetch path — including browser launch and page creation — escapes
`fetch_content_and_links`.  But `p.chromium.launch` (fetcher.py, line 257)
and `browser.new_page` (line 258) run BEFORE the `try` of the dynamic path,
so a launch failure escapes as an exception instead of an error result. -/
theorem c1_counterexample :
    fetch_content_and_links envNoLaunch [] "https://www.namccares.com/" =
      PyResult.exn "chromium.launch raised" := rfl

/-- C1 (corrected): every modelled failure other than browser launch and
page creation is caught and surfaced only through the result's error field;
provided launch and page creation succeed, `fetch_content_and_links` returns
normally for every URL, environment and registry. -/
theorem c1_fetch_no_escape_amended (env : FetchEnv) (reg : List String) (url : String)
    (h1 : env.launchOk = true) (h2 : env.newPageOk = true) :
    ∃ out, fetch_content_and_links env reg url = PyResult.ok out := by
  cases hres : fetch_content_and_links env reg url with
  | ok out => exact ⟨out, rfl⟩
  | exn e =>
    exfalso
    simp only [fetch_content_and_links] at hres
    by_cases hapi : isApiLike url = true
    · rw [if_pos hapi] at hres
      cases hst : env.staticResp url with
      | none =>
        simp only [hst] at hres
        exact PyResult.noConfusion hres
      | some resp =>
        simp only [hst] at hres
        by_cases hct : (hasSubstr ("application/json".toList) (lowerL resp.contentType.toList) ||
            hasSubstr ("xml".toList) (lowerL resp.contentType.toList)) = true
        · rw [if_pos hct] at hres
          exact PyResult.noConfusion hres
        · rw [if_neg hct] at hres
          exact PyResult.noConfusion hres
    · rw [if_neg hapi, if_neg (by simp [h1]), if_neg (by simp [h2])] at hres
      by_cases hg : env.gotoOk url = false
      · rw [if_pos hg] at hres
        exact PyResult.noConfusion hres
      · rw [if_neg hg] at hres
        by_cases hrev : env.revealedLinks url = []
        · rw [if_pos hrev] at hres
          exact PyResult.noConfusion hres
        · rw [if_neg hrev] at hres
          exact PyResult.noConfusion hres

/-- C1 witness: the amended theorem applied to a concrete healthy
environment and a concrete URL. -/
theorem c1_witness :
    ∃ out, fetch_content_and_links envAllOk [] "https://www.namccares.com/" =
      PyResult.ok out :=
  c1_fetch_no_escape_amended envAllOk [] "https://www.namccares.com/" rfl rfl

/-- C2 (confirmed): after every iteration of the orchestrator loop the
visited and queued sets are disjoint, and a dequeued URL that passes the
redundancy and depth checks is in `visited` and out of `queued` in the
resulting state — `visited_urls.add` happens before the fetch call, and
every enqueue checks the updated visited set. -/
theorem c2_visited_queued_disjoint (maxDepth : Nat) (fetchLinks : String → List String)
    (s : CrawlState) (h : ∀ u ∈ s.visited, u ∉ s.queued) :
    (∀ u ∈ (crawlStep maxDepth fetchLinks s).visited,
        u ∉ (crawlStep maxDepth fetchLinks s).queued) ∧
    (∀ url depth base rest, s.queue = (url, depth, base) :: rest →
        url ∉ s.visited → depth ≤ maxDepth →
        url ∈ (crawlStep maxDepth fetchLinks s).visited ∧
        url ∉ (crawlStep maxDepth fetchLinks s).queued) := by
  obtain ⟨q, v, qd⟩ := s
  have part1 : ∀ u ∈ (crawlStep maxDepth fetchLinks ⟨q, v, qd⟩).visited,
      u ∉ (crawlStep maxDepth fetchLinks ⟨q, v, qd⟩).queued := by
    cases q with
    | nil => exact h
    | cons e rest =>
      obtain ⟨url, depth, base⟩ := e
      simp only [crawlStep]
      by_cases h1 : url ∈ v
      · rw [if_pos h1]
        intro u hu
        exact not_mem_filter_of_not_mem (h u hu)
      · rw [if_neg h1]
        by_cases h2 : maxDepth < depth
        · rw [if_pos h2]
          intro u hu
          exact not_mem_filter_of_not_mem (h u hu)
        · rw [if_neg h2]
          have hinit : ∀ u ∈ v ++ [url], u ∉ qd.filter (fun x => x ≠ url) := by
            intro u hu
            rcases List.mem_append.mp hu with hm | hm
            · exact not_mem_filter_of_not_mem (h u hm)
            · simp only [List.mem_singleton] at hm
              subst hm
              intro hmem
              have := (List.mem_filter.mp hmem).2
              simp at this
          by_cases h3 : depth + 1 ≤ maxDepth
          · rw [if_pos h3]
            intro u hu
            exact enqueue_fold_disj (depth + 1) base (v ++ [url]) (fetchLinks url)
              (rest, qd.filter (fun x => x ≠ url)) hinit u hu
          · rw [if_neg h3]
            exact hinit
  refine ⟨part1, ?_⟩
  intro url depth base rest hq hnv hd
  subst hq
  have hvis : url ∈ (crawlStep maxDepth fetchLinks
      ⟨(url, depth, base) :: rest, v, qd⟩).visited := by
    simp only [crawlStep]
    rw [if_neg hnv, if_neg (by omega)]
    by_cases h3 : depth + 1 ≤ maxDepth
    · rw [if_pos h3]
      exact List.mem_append.mpr (Or.inr (by simp))
    · rw [if_neg h3]
      exact List.mem_append.mpr (Or.inr (by simp))
  exact ⟨hvis, part1 url hvis⟩

/-- C2 witness: one concrete orchestrator step from a seeded state. -/
theorem c2_witness :
    "https://d.com" ∈ (crawlStep 1 (fun _ => ["https://d.com/a"])
        ⟨[("https://d.com", 0, "d.com")], [], ["https://d.com"]⟩).visited ∧
    "https://d.com" ∉ (crawlStep 1 (fun _ => ["https://d.com/a"])
        ⟨[("https://d.com", 0, "d.com")], [], ["https://d.com"]⟩).queued :=
  (c2_visited_queued_disjoint 1 (fun _ => ["https://d.com/a"])
      ⟨[("https://d.com", 0, "d.com")], [], ["https://d.com"]⟩
      (fun u hu => absurd hu (List.not_mem_nil u))).2
    "https://d.com" 0 "d.com" [] rfl (List.not_mem_nil _) (by omega)

/-- C3 (confirmed): the run-wide `PROCESSED_FILE_URLS` registry makes file
processing at-most-once per crawl run — over a whole fetch-driven run (both
static and dynamic paths thread the same registry) at most one content
record is ever produced per file URL — and when the file's download
succeeds and the file is linked from at least one processed page, exactly
one content record is produced even when it is linked from N ≥ 2 pages. -/
theorem c3_file_processed_once :
    (∀ (env : FetchEnv) (urls : List String) (f : String),
      countFor f (crawlRun env [] urls) ≤ 1) ∧
    (∀ (env : FetchEnv) (pages : List (List String)) (f : String),
      env.downloadOk f = true → (∃ p ∈ pages, f ∈ p) →
      countFor f (pagesRun env [] pages) = 1) :=
  ⟨fun env urls f => (crawlRun_count env f urls []).2,
   fun env pages f hdl hex => pages_exact env f hdl pages [] (List.not_mem_nil f) hex⟩

/-- C3 witness: the same PDF link reachable from two distinct pages of one
run yields exactly one content record. -/
theorem c3_witness :
    countFor "http://h.com/a.pdf"
      (pagesRun envAllOk [] [["http://h.com/a.pdf"], ["http://h.com/a.pdf"]]) = 1 :=
  c3_file_processed_once.2 envAllOk [["http://h.com/a.pdf"], ["http://h.com/a.pdf"]]
    "http://h.com/a.pdf" rfl
    ⟨["http://h.com/a.pdf"], List.mem_cons_self _ _, List.mem_cons_self _ _⟩

/-- C4 counterexample: the claim says that once an element identifier is
registered after a successful click on one page, it is never clicked again
on a later page of the same run.  The clicked-key set is local to one page
visit and `GLOBAL_CLICKED_ELEMENTS` is never consulted, so the identically
structured element is clicked again on the second page. -/
theorem c4_counterexample :
    runClicks [[⟨"s", "Tab", false⟩], [⟨"s", "Tab", false⟩]] =
      [[("s", "Tab")], [("s", "Tab")]] := rfl

/-- C4 (corrected): the clicked-element dedup is scoped to a single page
visit, not to the crawl run — within one visit each identifier is clicked
at most once (the page-local `clicked_elements_key` set), but the engine
keeps no state between visits, so the same identifier is clicked again on
later pages. -/
theorem nodup_filter_le_one {l : List (String × String)} (h : l.Nodup)
    (k : String × String) : (l.filter (fun x => x == k)).length ≤ 1 := by
  induction l with
  | nil => simp
  | cons a t ih =>
    obtain ⟨hna, hnt⟩ := List.nodup_cons.mp h
    rw [List.filter_cons]
    by_cases ha : (a == k) = true
    · rw [if_pos ha]
      have hak : a = k := by simpa using ha
      subst hak
      have hft : t.filter (fun x => x == a) = [] := by
        rw [List.filter_eq_nil_iff]
        intro x hx hbx
        have : x = a := by simpa using hbx
        exact hna (this ▸ hx)
      rw [hft]
      simp
    · rw [if_neg ha]
      exact ih hnt

theorem c4_click_dedup_amended (page : List PageElement) (k : String × String) :
    (simulate_clicks_on_tabs page).count k ≤ 1 := by
  have h := clicks_fold page ([], []) rfl List.nodup_nil
  show List.countP (fun x => x == k) (simulate_clicks_on_tabs page) ≤ 1
  rw [List.countP_eq_length_filter]
  exact nodup_filter_le_one h.2 k

/-- C5 counterexample: the claim says a file whose download fails still
yields a null-content record in the page's file list.  When the download
returns `None`, the loop body's `if local_path:` guard skips the file
entirely: no record at all is produced. -/
theorem c5_counterexample :
    fetchFilesLoop envNoDownload [] ["http://h.com/report.pdf"] = ([], []) := by
  decide

/-- C5 (corrected): when the download succeeds but extraction fails (or the
extension is not pdf), the pipeline yields a null-content record, the file
is registered, and the page's fetch continues; when the download itself
fails, NO record is produced for that file (the page's fetch continues
with the file skipped and unregistered). -/
theorem c5_degraded_record_amended :
    (∀ (env : FetchEnv) (reg : List String) (f : String),
      env.downloadOk f = true → f ∉ reg →
      (env.pdfOk ("my_downloads/" ++ safeFilename f) = false ∨
        ofChars (lowerL (splitextExt ("my_downloads/" ++ safeFilename f).toList)) ≠ ".pdf") →
      fetchFilesLoop env reg [f] =
        ([{ file_url := f,
            file_name := ofChars (basenameL (urlparseL f.toList []).path),
            file_type := ofChars (stripDots (lowerL
              (splitextExt ("my_downloads/" ++ safeFilename f).toList))),
            content_text := none, content_tables_json := none }], reg ++ [f])) ∧
    (∀ (env : FetchEnv) (reg : List String) (f : String),
      env.downloadOk f = false → fetchFilesLoop env reg [f] = ([], reg)) := by
  constructor
  · intro env reg f hdl hnm hbad
    unfold fetchFilesLoop
    simp only [List.foldl_cons, List.foldl_nil]
    unfold fetchFileStep
    rw [if_neg hnm]
    have hdl2 : download_file env f = some ("my_downloads/" ++ safeFilename f) := by
      unfold download_file
      rw [if_pos hdl]
    simp only [hdl2, process_document_null env ("my_downloads/" ++ safeFilename f) f hbad]
    rfl
  · intro env reg f hdl
    unfold fetchFilesLoop
    simp only [List.foldl_cons, List.foldl_nil]
    unfold fetchFileStep
    by_cases hm : f ∈ (([] : List FileRecord), reg).2
    · rw [if_pos hm]
    · rw [if_neg hm]
      have hdl2 : download_file env f = none := by
        unfold download_file
        rw [if_neg (by simp [hdl])]
      simp only [hdl2]

/-- C5 witness: a concrete extraction failure yields a null-content record;
a concrete download failure yields no record. -/
theorem c5_witness :
    fetchFilesLoop envNoPdf [] ["http://h.com/report.pdf"] =
      ([{ file_url := "http://h.com/report.pdf", file_name := "report.pdf",
          file_type := "pdf", content_text := none, content_tables_json := none }],
        ["http://h.com/report.pdf"]) ∧
    fetchFilesLoop envNoDownload [] ["http://h.com/other.pdf"] = ([], []) :=
  ⟨(c5_degraded_record_amended.1 envNoPdf [] "http://h.com/report.pdf" rfl
      (List.not_mem_nil _) (Or.inl rfl)).trans (by decide),
   c5_degraded_record_amended.2 envNoDownload [] "http://h.com/other.pdf" rfl⟩

/-- C6 counterexample: the claim says the scratch file is deleted
unconditionally after processing for every downloaded file of any
extension.  For a non-pdf extension `process_document_content` returns the
metadata record without ever removing the scratch file. -/
theorem c6_counterexample :
    (process_document_content envAllOk "my_downloads/data.zip"
      "http://h.com/data.zip").2 = false := by
  decide

/-- C6 (corrected): only the pdf branch deletes the scratch file — there it
is deleted unconditionally (the `finally` of `process_pdf_with_plumber`
runs on success and failure alike), but for every other extension
`process_document_content` leaves the scratch file in place. -/
theorem c6_scratch_delete_amended (env : FetchEnv) (fp fu : String) :
    (process_pdf_with_plumber env fp).2 = true ∧
    (process_document_content env fp fu).2 =
      (ofChars (lowerL (splitextExt fp.toList)) == ".pdf") := by
  constructor
  · rfl
  · simp only [process_document_content]
    by_cases he : ofChars (lowerL (splitextExt fp.toList)) = ".pdf"
    · rw [if_pos he]
      cases hp : (process_pdf_with_plumber env fp).1 <;> simp only [hp] <;> rw [he] <;> rfl
    · rw [if_neg he]
      show false = _
      exact (beq_eq_false_iff_ne.mpr he).symm

/-- C7 counterexample: the claim says bare-media-extension links are
discarded by the extractor and appear in neither the page links nor the
surviving set.  A same-domain `.jpg` link survives `extract_links` (no
extension filtering happens there) and is a downloadable-extension link,
so it is handed onward to the document pipeline. -/
theorem c7_counterexample :
    "https://a.com/img.jpg" ∈ extract_links ["https://a.com/img.jpg"] "https://a.com" ∧
    is_downloadable_file_link "https://a.com/img.jpg" = true := by
  decide

/-- C7 (corrected): every link surviving `extract_links` is the
query-and-fragment-free canonicalisation of an anchor resolving to an
absolute http/https URL, is not social and not a mailto/javascript link
(in particular it contains no `?` or `#`) — but media-extension links are
NOT discarded there; they are excluded from page links only by the
fetcher's downloadable-extension partition, every link list a fetch result
carries being free of downloadable-extension links. -/
theorem c7_extract_links_amended :
    (∀ (hrefs : List String) (base u : String), u ∈ extract_links hrefs base →
      (∃ href ∈ hrefs, keptLinkSpec base href u) ∧
      '?' ∉ u.toList ∧ '#' ∉ u.toList ∧ is_social_url u = false ∧
      startsWithL ("mailto:".toList) (lowerL u.toList) = false ∧
      startsWithL ("javascript:".toList) (lowerL u.toList) = false) ∧
    (∀ (env : FetchEnv) (reg : List String) (url : String) (r : FetchResult)
        (reg1 : List String),
      fetch_content_and_links env reg url = PyResult.ok (r, reg1) →
      ∀ l ∈ r.links, is_downloadable_file_link l = false) := by
  constructor
  · intro hrefs base u hu
    obtain ⟨href, hm, hk⟩ := extract_links_mem hrefs base u hu
    have hqf := kept_no_qf base href u hk
    exact ⟨⟨href, hm, hk⟩, hqf.1, hqf.2, hk.2.2.1, hk.2.2.2.1, hk.2.2.2.2⟩
  · exact fetch_links_not_file

/-- C7 witness: the first half of the amended theorem applied to one
concrete anchor whose query is stripped by canonicalisation. -/
theorem c7_witness :
    (∃ href ∈ ["/b?q=1"], keptLinkSpec "https://a.com" href "https://a.com/b") ∧
    '?' ∉ ("https://a.com/b").toList ∧ '#' ∉ ("https://a.com/b").toList ∧
    is_social_url "https://a.com/b" = false ∧
    startsWithL ("mailto:".toList) (lowerL ("https://a.com/b").toList) = false ∧
    startsWithL ("javascript:".toList) (lowerL ("https://a.com/b").toList) = false :=
  c7_extract_links_amended.1 ["/b?q=1"] "https://a.com" "https://a.com/b" (by decide)

/-- C8 counterexample: the claim says `normalize_url` is idempotent on
every input string.  On the scheme-less input "a.com" the rebuild prepends
"://", and re-normalising prepends it again. -/
theorem c8_counterexample :
    normalize_url (normalize_url "a.com") ≠ normalize_url "a.com" := by
  decide

/-- C8 (corrected): `normalize_url` is idempotent on every input whose
parse fails (returned unchanged) and on every input whose parse finds an
explicit scheme and a `//` netloc marker with no `;` in the path — in
particular on every absolute http/https URL without path parameters.  It
is not idempotent on scheme-less strings such as "a.com". -/
theorem c8_normalize_idem_amended (u : String)
    (h : urlsplitFails u.toList = true ∨ schemeNetlocForm u = true) :
    normalize_url (normalize_url u) = normalize_url u := by
  by_cases hf : urlsplitFails u.toList = true
  · have h1 : normalize_url u = u := by
      unfold normalize_url
      rw [hf, if_pos rfl]
    rw [h1]
    exact h1
  · have hfF : urlsplitFails u.toList = false := Bool.eq_false_iff.mpr hf
    have hg : schemeNetlocForm u = true := h.resolve_left hf
    simp only [schemeNetlocForm, Bool.and_eq_true] at hg
    obtain ⟨⟨hsch, hnet⟩, hsemiB⟩ := hg
    have hsemi : ';' ∉ pathOf u.toList := by
      intro hm
      have h2 : (pathOf u.toList).contains ';' = true := List.elem_iff.mpr hm
      rw [h2] at hsemiB
      exact absurd hsemiB (by decide)
    have hsplit : urlsplitL u.toList [] =
        ⟨lowerL (schemePre u.toList), netlocOf u.toList, pathOf u.toList,
         queryOf u.toList, fragOf u.toList⟩ := by
      unfold urlsplitL
      rw [hsch, if_pos rfl]
    have hparse : urlparseL u.toList [] =
        ⟨lowerL (schemePre u.toList), netlocOf u.toList, pathOf u.toList, [],
         queryOf u.toList, fragOf u.toList⟩ := by
      unfold urlparseL
      rw [hsplit]
      show (⟨lowerL (schemePre u.toList), netlocOf u.toList,
        (splitParams (pathOf u.toList)).1, (splitParams (pathOf u.toList)).2,
        queryOf u.toList, fragOf u.toList⟩ : ParsedUrl) = _
      rw [splitParams_no_semi hsemi]
    have hnorm : normalize_url u =
        ofChars (reconUrl (lowerL (schemePre u.toList)) (netlocOf u.toList)
          (rstripSlash (pathOf u.toList))) := by
      unfold normalize_url
      rw [hfF, if_neg (by simp), hparse]
      show ofChars (lowerL (schemePre u.toList) ++ (String.toList "://") ++
        netlocOf u.toList ++ rstripSlash (pathOf u.toList)) = _
      unfold reconUrl
      congr 1
      show lowerL (schemePre u.toList) ++ [':', '/', '/'] ++
        netlocOf u.toList ++ rstripSlash (pathOf u.toList) = _
      simp
    have hsOk : schemeOk (schemePre u.toList) = true := by
      simp only [hasSchemeB, Bool.and_eq_true] at hsch
      exact hsch.2
    rw [hnorm]
    apply normalize_recon_fix
    · exact schemeOk_lowerL _ hsOk
    · exact lowerL_idem _
    · exact netlocOf_chars u.toList
    · intro c hc
      exact mem_sanitize_no_unsafe (netlocOf_subset_sanitize u.toList c hc)
    · intro c hc
      have h2 := mem_of_mem_rstripSlash hc
      exact mem_sanitize_no_unsafe
        (rest2Of_subset_sanitize u.toList c (pathOf_subset_rest2 u.toList c h2))
    · intro c hc
      exact pathOf_chars u.toList c (mem_of_mem_rstripSlash hc)
    · rcases pathOf_start u.toList hnet with h0 | ⟨t, ht⟩
      · rw [h0]
        exact Or.inl rfl
      · rw [ht]
        rcases rstripSlash_head (a := '/') (l := t) with h1 | ⟨t2, h2⟩
        · exact Or.inl h1
        · exact Or.inr ⟨t2, h2⟩
    · intro hm
      exact hsemi (mem_of_mem_rstripSlash hm)
    · exact rstripSlash_idem _
    · have h2 := hfF
      unfold urlsplitFails at h2
      cases hb1 : (netlocOf u.toList).contains '[' <;>
        cases hb2 : (netlocOf u.toList).contains ']'
      · rfl
      · rw [hb1, hb2] at h2
        exact absurd h2 (by decide)
      · rw [hb1, hb2] at h2
        exact absurd h2 (by decide)
      · rfl

/-- C8 witness: idempotence on a concrete well-formed https URL. -/
theorem c8_witness :
    normalize_url (normalize_url "https://www.namccares.com/about/?tab=2#top") =
      normalize_url "https://www.namccares.com/about/?tab=2#top" :=
  c8_normalize_idem_amended "https://www.namccares.com/about/?tab=2#top"
    (Or.inr (by decide))

/-- C9 (confirmed): the schema loop of `parse_html_content` treats every
entry independently — with a first entry whose pattern fails to compile and
a second entry whose extraction succeeds, the output holds exactly the
second entry's result, unchanged by the first entry's failure. -/
theorem c9_schema_isolation (text na nb : String) (ca cb : VarConfig) (pa : String)
    (r : ExtractResult)
    (h1 : ca.value_pattern = some pa) (h2 : compileModel pa = none)
    (h3 : contextual_extract text cb = some r) :
    parseSchemaLoop text [(na, ca), (nb, cb)] = [(nb, r)] := by
  have e1 : contextual_extract text ca = none :=
    extract_none_of_bad text ca (Or.inr ⟨pa, h1, h2⟩)
  unfold parseSchemaLoop
  simp only [List.foldl_cons, List.foldl_nil, e1, h3, List.nil_append]

/-- C9 witness: an unbalanced-parenthesis pattern next to a working literal
pattern yields output only for the working entry. -/
theorem c9_witness :
    parseSchemaLoop "say hello world"
      [("a", ⟨["price"], some "(", true⟩), ("b", ⟨[], some "hello", false⟩)] =
      [("b", ExtractResult.single "hello")] :=
  c9_schema_isolation "say hello world" "a" "b" ⟨["price"], some "(", true⟩
    ⟨[], some "hello", false⟩ "(" (ExtractResult.single "hello") rfl rfl (by decide)

/-- C10 (confirmed): `is_social_url` classifies a URL as social exactly
when some blocklisted domain occurs as a substring anywhere in the
lowercased URL — host, path or query alike, not only as the URL's host. -/
theorem c10_social_substring (u : String) :
    is_social_url u = true ↔
      ∃ d ∈ SOCIAL_DOMAINS, ∃ pre post, lowerL u.toList = pre ++ d.toList ++ post := by
  unfold is_social_url
  by_cases hu : u = ""
  · rw [if_pos hu]
    constructor
    · intro hfalse
      exact absurd hfalse (by decide)
    · rintro ⟨d, hd, pre, post, hsplit⟩
      subst hu
      have h0 : pre ++ d.toList ++ post = ([] : List Char) := hsplit.symm
      rw [List.append_eq_nil, List.append_eq_nil] at h0
      have hdnil : d.toList = [] := h0.1.2
      simp only [SOCIAL_DOMAINS, List.mem_cons, List.not_mem_nil, or_false] at hd
      rcases hd with rfl | rfl | rfl | rfl | rfl | rfl | rfl | rfl | rfl | rfl <;>
        exact absurd hdnil (by decide)
  · rw [if_neg hu, List.any_eq_true]
    constructor
    · rintro ⟨d, hd, hsub⟩
      obtain ⟨pre, post, hsplit⟩ := (hasSubstr_iff _ _).mp hsub
      exact ⟨d, hd, pre, post, hsplit⟩
    · rintro ⟨d, hd, pre, post, hsplit⟩
      exact ⟨d, hd, (hasSubstr_iff _ _).mpr ⟨pre, post, hsplit⟩⟩

/-- C10 witness: a URL whose host merely ends in "x.com" is classified as
social by the substring rule. -/
theorem c10_witness :
    ∃ d ∈ SOCIAL_DOMAINS, ∃ pre post,
      lowerL ("https://sphinx.com/a").toList = pre ++ d.toList ++ post :=
  (c10_social_substring "https://sphinx.com/a").mp (by decide)

end Scrape
